import Mathlib

/-!
Verification development for the gofileserver access-logging middleware
(package httploghandler and the historical monolithic variants).

The definitions below are shallow embeddings of the Go source:

* `GoCsv` embeds the record serialization performed by `W3CFormatWriter`
  through Go's `encoding/csv` writer with `Comma = ' '` and `UseCRLF = false`
  (src/httploghandler/w3cformat.go, and the identical `w3cLogWriter` in the
  monolithic variant).
* `FormatWriter` embeds `W3CFormatWriter.Write / WriteCommented / WriteComment
  / writeFields / sendBuffer` including the panic-on-write-error policy and
  the discarded return value of the optional flusher.
* `Tracker` embeds the pure per-request bookkeeping of `w3cLogger`
  (`Write`, `OnAfterHandle` suffix construction).
* `Construction` embeds `NewHandler` and the option functions.
* `HandlerModel` is an interleaving semantics of `Handler.ServeHTTP`
  (src/httploghandler/w3cloghandler.go) together with the `w3cLogger`
  lifecycle (`OnBeforeHandle`, the `time.AfterFunc` provisional timer
  goroutine, `OnAfterHandle`) and the shared `sync.WaitGroup`, one atomic
  shared-state access per step, driven by an explicit schedule.
* `HijackModel` is the corresponding interleaving semantics of the
  `w3cHijackerLogger` / `connWrap` lifecycle of src/unnamed/part_002
  (`sync.Once` latch, atomic post-hijack byte counter).
* `HijackModelOld` is the same lifecycle for the variant in
  src/httploghandler/w3clogger.go, whose `connWrap.Close` has no latch and
  whose connection wrapper does not intercept writes.
-/

namespace GoCsv

/-- Characters that force quoting in the byte scan of Go's
`Writer.fieldNeedsQuotes` when `Comma = ' '`: the comma byte (here the
space), the quote, and the two newline bytes. -/
def isDelimSpecial (c : Char) : Bool :=
  c = '\n' || c = '\r' || c = '"' || c = ' '

/-- Go's `unicode.IsSpace`, spelled out over the White_Space code points. -/
def goIsSpace (c : Char) : Bool :=
  c = '\t' || c = '\n' || c = '\u000B' || c = '\u000C' || c = '\r' || c = ' ' ||
  c.val = 0x85 || c.val = 0xA0 || c.val = 0x1680 ||
  (0x2000 ≤ c.val && c.val ≤ 0x200A) ||
  c.val = 0x2028 || c.val = 0x2029 || c.val = 0x202F || c.val = 0x205F ||
  c.val = 0x3000

/-- Embedding of Go `encoding/csv` `Writer.fieldNeedsQuotes` with
`Comma = ' '`: an empty field is unquoted, the literal field `\.` is quoted,
and otherwise a field is quoted when it contains the delimiter, a quote or a
newline byte, or when its first rune is a Unicode space. -/
def fieldNeedsQuotes : List Char → Bool
  | [] => false
  | c :: cs =>
    if c :: cs = ['\\', '.'] then true
    else (c :: cs).any isDelimSpecial || goIsSpace c

/-- Body of a quoted field as emitted by the csv writer with
`UseCRLF = false`: internal quotes are doubled, every other character
(including carriage returns and newlines) is copied verbatim. -/
def escapeQuoted : List Char → List Char
  | [] => []
  | c :: cs =>
    if c = '"' then '"' :: '"' :: escapeQuoted cs else c :: escapeQuoted cs

/-- One serialized field: quoted with doubled internal quotes when
`fieldNeedsQuotes` holds, verbatim otherwise. -/
def renderField (f : List Char) : List Char :=
  if fieldNeedsQuotes f then '"' :: (escapeQuoted f ++ ['"']) else f

/-- One serialized record: fields joined by single spaces, terminated by a
newline, exactly as the csv writer emits into the format writer's buffer. -/
def renderRecord : List (List Char) → List Char
  | [] => ['\n']
  | [f] => renderField f ++ ['\n']
  | f :: g :: fs => renderField f ++ ' ' :: renderRecord (g :: fs)

/-- Inverse of the quoting rule: consume a quoted field body after the
opening quote, un-doubling internal quotes, and return the remainder after
the closing quote. -/
def takeQuoted : List Char → Option (List Char × List Char)
  | [] => none
  | c :: cs =>
    if c = '"' then
      match cs with
      | [] => some ([], [])
      | d :: ds =>
        if d = '"' then (takeQuoted ds).map (fun p => ('"' :: p.1, p.2))
        else some ([], d :: ds)
    else (takeQuoted cs).map (fun p => (c :: p.1, p.2))

/-- Consume an unquoted field: everything up to the next delimiter or
record terminator. -/
def takeUnquoted : List Char → List Char × List Char
  | [] => ([], [])
  | c :: cs =>
    if c = ' ' || c = '\n' then ([], c :: cs)
    else
      let p := takeUnquoted cs
      (c :: p.1, p.2)

/-- Parse one field, choosing the quoted or unquoted rule by the leading
character. -/
def parseFieldFrom (input : List Char) : Option (List Char × List Char) :=
  match input with
  | [] => some ([], [])
  | c :: cs => if c = '"' then takeQuoted cs else some (takeUnquoted (c :: cs))

/-- Parse a full record back into its fields (fuelled recursion; the fuel
is bounded by the record length). -/
def parseRecAux : Nat → List Char → Option (List (List Char))
  | 0, _ => none
  | Nat.succ fuel, input =>
    match parseFieldFrom input with
    | none => none
    | some (f, rest) =>
      match rest with
      | [] => none
      | c :: rest2 =>
        if c = '\n' then (if rest2 = [] then some [f] else none)
        else if c = ' ' then (parseRecAux fuel rest2).map (fun fs => f :: fs)
        else none

/-- Parse a serialized record with the inverse of the escaping rule. -/
def parseRecord (input : List Char) : Option (List (List Char)) :=
  parseRecAux (input.length + 1) input

theorem takeQuoted_escape (f : List Char) (rest : List Char)
    (hrest : rest.head? ≠ some '"') :
    takeQuoted (escapeQuoted f ++ '"' :: rest) = some (f, rest) := by
  induction f with
  | nil =>
    cases rest with
    | nil => simp [escapeQuoted, takeQuoted]
    | cons r rs =>
      have hr : r ≠ '"' := by
        intro h; apply hrest; simp [h]
      simp [escapeQuoted, takeQuoted, hr]
  | cons c cs ih =>
    by_cases hc : c = '"'
    · subst hc
      simp only [escapeQuoted, if_pos rfl, List.cons_append]
      simp [takeQuoted, ih]
    · simp only [escapeQuoted, if_neg hc, List.cons_append]
      have step : takeQuoted (c :: (escapeQuoted cs ++ '"' :: rest)) =
          (takeQuoted (escapeQuoted cs ++ '"' :: rest)).map (fun p => (c :: p.1, p.2)) := by
        conv_lhs => rw [takeQuoted.eq_def]
        simp [hc]
      rw [step, ih]
      rfl

theorem takeUnquoted_plain (f : List Char) (rest : List Char)
    (hf : ∀ c ∈ f, isDelimSpecial c = false)
    (hrest : rest.head? = some ' ' ∨ rest.head? = some '\n') :
    takeUnquoted (f ++ rest) = (f, rest) := by
  induction f with
  | nil =>
    cases rest with
    | nil => simp at hrest
    | cons r rs =>
      have hr : r = ' ' ∨ r = '\n' := by
        rcases hrest with h | h
        · left; simpa using h
        · right; simpa using h
      rcases hr with h | h <;> subst h <;> simp [takeUnquoted]
  | cons c cs ih =>
    have hc := hf c (by simp)
    have hc1 : c ≠ ' ' := by
      intro h; rw [h] at hc; simp [isDelimSpecial] at hc
    have hc2 : c ≠ '\n' := by
      intro h; rw [h] at hc; simp [isDelimSpecial] at hc
    have ihh := ih (fun d hd => hf d (by simp [hd]))
    simp [takeUnquoted, hc1, hc2, ihh]

theorem fieldNeedsQuotes_eq_false {f : List Char}
    (h : fieldNeedsQuotes f = false) : ∀ c ∈ f, isDelimSpecial c = false := by
  cases f with
  | nil => intro c hc; simp at hc
  | cons c cs =>
    intro d hd
    by_cases hsp : c :: cs = ['\\', '.']
    · rw [fieldNeedsQuotes, if_pos hsp] at h; exact absurd h (by simp)
    · rw [fieldNeedsQuotes, if_neg hsp] at h
      have := (Bool.or_eq_false_iff.mp h).1
      rw [List.any_eq_false] at this
      simpa using this d hd

theorem parseFieldFrom_render (f : List Char) (rest : List Char)
    (hrest : rest.head? = some ' ' ∨ rest.head? = some '\n') :
    parseFieldFrom (renderField f ++ rest) = some (f, rest) := by
  by_cases hq : fieldNeedsQuotes f
  · have hrq : rest.head? ≠ some '"' := by
      rcases hrest with h | h <;> · rw [h]; simp
    simp only [renderField, if_pos hq, List.cons_append, List.append_assoc]
    simp [parseFieldFrom, takeQuoted_escape f rest hrq]
  · have hq' : fieldNeedsQuotes f = false := by simpa using hq
    have hplain := fieldNeedsQuotes_eq_false hq'
    cases f with
    | nil =>
      cases rest with
      | nil => simp at hrest
      | cons r rs =>
        have hr : r = ' ' ∨ r = '\n' := by
          rcases hrest with h | h
          · left; simpa using h
          · right; simpa using h
        rcases hr with h | h <;> subst h <;>
          simp [renderField, fieldNeedsQuotes, parseFieldFrom, takeUnquoted]
    | cons c cs =>
      have hc := hplain c (by simp)
      have hcq : c ≠ '"' := by
        intro h; rw [h] at hc; simp [isDelimSpecial] at hc
      simp only [renderField, hq', Bool.false_eq_true, if_false, List.cons_append]
      rw [parseFieldFrom]
      simp only [hcq, if_false]
      rw [← List.cons_append]
      exact congrArg some (takeUnquoted_plain (c :: cs) rest hplain hrest)

theorem parseRecAux_render (fields : List (List Char)) (fuel : Nat)
    (hne : fields ≠ []) (hfuel : fields.length ≤ fuel) :
    parseRecAux fuel (renderRecord fields) = some fields := by
  induction fields generalizing fuel with
  | nil => exact absurd rfl hne
  | cons f fs ih =>
    cases fuel with
    | zero => simp at hfuel
    | succ fuel =>
      cases fs with
      | nil =>
        have h1 : parseFieldFrom (renderField f ++ ['\n']) = some (f, ['\n']) :=
          parseFieldFrom_render f ['\n'] (Or.inr rfl)
        simp [renderRecord, parseRecAux, h1]
      | cons g gs =>
        have h1 : parseFieldFrom (renderField f ++ ' ' :: renderRecord (g :: gs)) =
            some (f, ' ' :: renderRecord (g :: gs)) :=
          parseFieldFrom_render f (' ' :: renderRecord (g :: gs)) (Or.inl rfl)
        have hlen : (g :: gs).length ≤ fuel := by
          simp only [List.length_cons] at hfuel ⊢
          omega
        have ih2 := ih fuel (by simp) hlen
        simp [renderRecord, parseRecAux, h1, ih2]

theorem renderRecord_length (fields : List (List Char)) :
    fields.length ≤ (renderRecord fields).length := by
  induction fields with
  | nil => simp [renderRecord]
  | cons f fs ih =>
    cases fs with
    | nil => simp [renderRecord]
    | cons g gs =>
      simp only [renderRecord, List.length_cons, List.length_append] at ih ⊢
      omega

end GoCsv

/-- C7: serializing any record of field values with the format writer's
escaping rule (space delimiter, CSV-style quoting with doubled internal
quotes) and parsing it back with the inverse rule recovers every field value
unchanged, including fields containing embedded spaces and quotes. -/
theorem c7_roundtrip (fields : List (List Char)) (hne : fields ≠ []) :
    GoCsv.parseRecord (GoCsv.renderRecord fields) = some fields := by
  apply GoCsv.parseRecAux_render fields _ hne
  have := GoCsv.renderRecord_length fields
  omega

/-- C7 witness: a concrete record whose single field contains a space and a
quote round-trips exactly. -/
theorem c7_roundtrip_witness :
    (['a', ' ', '"', 'b'] :: [['x']] ≠ []) ∧
    GoCsv.parseRecord (GoCsv.renderRecord (['a', ' ', '"', 'b'] :: [['x']])) =
      some (['a', ' ', '"', 'b'] :: [['x']]) :=
  ⟨by decide, c7_roundtrip (['a', ' ', '"', 'b'] :: [['x']]) (by decide)⟩

namespace FormatWriter

/-- Behaviour of the underlying line sink (`io.Writer`, optionally exposing
`Flush() error`): the error each call would return. -/
structure GoSink where
  writeErr : Option String
  hasFlusher : Bool
  flushErr : Option String
deriving DecidableEq, Repr

/-- Mutable state of `W3CFormatWriter`: the internal `bytes.Buffer` and the
bytes so far accepted by the sink. -/
structure WriterState where
  buffer : List Char
  output : List Char
deriving DecidableEq, Repr

/-- Embedding of `W3CFormatWriter.writeFields`: the csv writer serializes the
fields into the internal buffer.  With a `bytes.Buffer` destination the two
panic branches of `writeFields` are unreachable, so this step always
succeeds. -/
def writeFields (st : WriterState) (fields : List (List Char)) : WriterState :=
  { st with buffer := st.buffer ++ GoCsv.renderRecord fields }

/-- Embedding of `W3CFormatWriter.sendBuffer`: write the buffer to the sink,
panicking (modelled as `Except.error`) when the sink's write fails; then, if
a flusher is present, invoke `Flush` and discard its result, exactly as the
source does. -/
def sendBuffer (s : GoSink) (st : WriterState) : Except String WriterState :=
  match s.writeErr with
  | some e => Except.error e
  | none =>
    let st2 : WriterState := { buffer := [], output := st.output ++ st.buffer }
    let _flushOutcome : Option String := if s.hasFlusher then s.flushErr else none
    Except.ok st2

/-- Embedding of `W3CFormatWriter.Write`. -/
def write (s : GoSink) (st : WriterState) (fields : List (List Char)) :
    Except String WriterState :=
  sendBuffer s (writeFields st fields)

/-- Embedding of `W3CFormatWriter.WriteCommented`: a `#` marker byte, then the
serialized fields, then the flush to the sink. -/
def writeCommented (s : GoSink) (st : WriterState) (fields : List (List Char)) :
    Except String WriterState :=
  sendBuffer s (writeFields { st with buffer := st.buffer ++ ['#'] } fields)

/-- Embedding of `W3CFormatWriter.WriteComment`: `#`, the comment text and a
newline, then the flush to the sink. -/
def writeComment (s : GoSink) (st : WriterState) (comment : List Char) :
    Except String WriterState :=
  sendBuffer s { st with buffer := st.buffer ++ '#' :: (comment ++ ['\n']) }

end FormatWriter

namespace Tracker

/-- Result of one response write as seen by the wrapped `http.ResponseWriter`:
the byte count returned and the error, `w.Writer.Write(b) = (n, err)`. -/
abbrev WriteResult := Int × Option String

/-- The mutable response-outcome fields of `w3cLogger` touched by `Write`. -/
structure WState where
  written : Int
  writeErr : Option String
deriving DecidableEq, Repr

/-- Embedding of `w3cLogger.Write` (identical in `responseLogger.Write` of the
monolithic variants): the byte accumulator always grows by the count the
underlying writer reports, and a non-nil error is stored into `WriteError`. -/
def loggerWrite (st : WState) (w : WriteResult) : WState :=
  let st2 : WState := { st with written := st.written + w.1 }
  match w.2 with
  | some e => { st2 with writeErr := some e }
  | none => st2

/-- A sequence of response writes folded through `w3cLogger.Write`. -/
def loggerWrites (st : WState) (ws : List WriteResult) : WState :=
  ws.foldl loggerWrite st

/-- One hexadecimal digit as produced by Go's `%x` verb. -/
def hexDigit (n : Nat) : Char :=
  if n < 10 then Char.ofNat (48 + n) else Char.ofNat (87 + n)

/-- Big-endian hexadecimal digits of a positive number (`%x` without
padding); zero yields no digits here and is special-cased in `hexPad8`. -/
def hexDigits : Nat → List Char
  | 0 => []
  | Nat.succ n =>
    hexDigits ((Nat.succ n) / 16) ++ [hexDigit ((Nat.succ n) % 16)]
decreasing_by exact Nat.div_lt_self (Nat.succ_pos n) (by omega)

/-- Embedding of `%08x`: minimal hex digits, zero-padded on the left to
width eight. -/
def hexPad8 (n : Nat) : List Char :=
  let ds := if n = 0 then ['0'] else hexDigits n
  List.replicate (8 - ds.length) '0' ++ ds

/-- The request-identifier text used by both markers: `0x%08x`. -/
def hexId (n : Nat) : String :=
  "0x" ++ String.mk (hexPad8 n)

/-- Big-endian decimal digits of a positive number; zero yields no digits
here and is special-cased by callers. -/
def decDigits : Nat → List Char
  | 0 => []
  | Nat.succ n =>
    decDigits ((Nat.succ n) / 10) ++ [hexDigit ((Nat.succ n) % 10)]
decreasing_by exact Nat.div_lt_self (Nat.succ_pos n) (by omega)

/-- Rendering of the elapsed-seconds field: six decimal places of
`elapsed.Seconds()`, the decimal rounding done exactly on the nanosecond
count (the source formats the equivalent float64 with `%f`). -/
def formatElapsedSeconds (ns : Nat) : String :=
  let micros := (ns + 500) / 1000
  let ip := micros / 1000000
  let fp := micros % 1000000
  let fpDigits := if fp = 0 then ['0'] else decDigits fp
  toString ip ++ "." ++ String.mk (List.replicate (6 - fpDigits.length) '0' ++ fpDigits)

end Tracker

namespace Tracker

/-- The error column of the terminal record: the stored write error's text,
or the empty string. -/
def errText : Option String → String
  | some e => e
  | none => ""

/-- The response-outcome fields of `w3cLogger` read by `OnAfterHandle`. -/
structure ReqTracker where
  requestId : Nat
  status : Int
  written : Int
  writeErr : Option String
deriving DecidableEq, Repr

/-- Embedding of the suffix construction in `w3cLogger.OnAfterHandle`
(w3clogger.go lines 80-98): status, byte count, elapsed seconds, the
write-error text or an empty string, then either an empty association field
(when `partialLogTimer.Stop()` returned true) or the end marker with the
request identifier (when the timer had already fired). -/
def onAfterSuffix (t : ReqTracker) (elapsedNs : Nat) (stopOk : Bool) : List String :=
  let s1 := [toString t.status, toString t.written, formatElapsedSeconds elapsedNs]
  let s2 :=
    match t.writeErr with
    | some e => s1 ++ [e]
    | none => s1 ++ [""]
  if stopOk then s2 ++ [""] else s2 ++ ["<- " ++ hexId t.requestId]

/-- The full terminal record: freshly computed prefix fields followed by the
suffix, as passed to `LogWriter.Write` by `OnAfterHandle`. -/
def terminalRecord (prefixFields : List String) (t : ReqTracker) (elapsedNs : Nat)
    (stopOk : Bool) : List String :=
  prefixFields ++ onAfterSuffix t elapsedNs stopOk

theorem hexDigits_length_le : ∀ (k : Nat) (n : Nat), n < 16 ^ k →
    (hexDigits n).length ≤ k := by
  intro k
  induction k with
  | zero =>
    intro n h
    have hn : n = 0 := by simpa using h
    subst hn
    simp [hexDigits]
  | succ k ih =>
    intro n h
    match n with
    | 0 => simp [hexDigits]
    | Nat.succ m =>
      rw [hexDigits]
      rw [List.length_append]
      have h16 : (Nat.succ m) / 16 < 16 ^ k := by
        rw [Nat.div_lt_iff_lt_mul (by omega)]
        calc Nat.succ m < 16 ^ (k + 1) := h
        _ = 16 ^ k * 16 := by ring
      have := ih _ h16
      simp only [List.length_cons, List.length_nil]
      omega

theorem hexPad8_length (n : Nat) (h : n < 2 ^ 32) : (hexPad8 n).length = 8 := by
  rw [hexPad8]
  by_cases hn : n = 0
  · simp [hn]
  · have hlt : n < 16 ^ 8 := by
      have : (16 : Nat) ^ 8 = 2 ^ 32 := by norm_num
      omega
    have hle := hexDigits_length_le 8 n hlt
    simp only [hn, if_false, List.length_append, List.length_replicate]
    omega

end Tracker

namespace Construction

/-- The package's functional options, closed over their argument values:
`WithLogWriter` and `WithW3CFormatWriter` both install a format writer,
`WithWaitGroup` replaces the internal wait group, `WithProvisionalLogDelay`
sets the delay.  The delay is in nanoseconds (Go `time.Duration`). -/
inductive HOption
  | withLogWriter
  | withWaitGroup
  | withProvisionalLogDelay (d : Int)
deriving DecidableEq, Repr

/-- The configuration fields of `Handler` that `NewHandler` and the options
determine. -/
structure HandlerConfig where
  hasLogWriter : Bool
  hasExternalWaitGroup : Bool
  provisionalLogDelay : Int
deriving DecidableEq, Repr

/-- One second in nanoseconds, Go's `time.Second`. -/
def second : Int := 1000000000

/-- Application of one option function; every option in the package returns
a nil error. -/
def applyOption (h : HandlerConfig) : HOption → Except String HandlerConfig
  | HOption.withLogWriter => Except.ok { h with hasLogWriter := true }
  | HOption.withWaitGroup => Except.ok { h with hasExternalWaitGroup := true }
  | HOption.withProvisionalLogDelay d =>
      Except.ok { h with provisionalLogDelay := d }

/-- The handler state built before options run: internal wait group, a
provisional-log delay of one second, no log writer. -/
def initialConfig : HandlerConfig :=
  { hasLogWriter := false, hasExternalWaitGroup := false,
    provisionalLogDelay := second }

/-- Embedding of `NewHandler` (w3cloghandler.go lines 33-55): reject any
format other than `LogFormatExtendedLegacy` (value 0), apply the options in
order aborting on the first error, then reject a configuration with no log
writer. -/
def newHandler (format : Int) (opts : List HOption) : Except String HandlerConfig :=
  if format ≠ 0 then Except.error "unsupported log format"
  else
    match opts.foldlM applyOption initialConfig with
    | Except.error e => Except.error e
    | Except.ok h =>
      if h.hasLogWriter = false then Except.error "a log writer must be specified"
      else Except.ok h

/-- Pure single-option application (the options never fail). -/
def applyPure (h : HandlerConfig) (o : HOption) : HandlerConfig :=
  match o with
  | HOption.withLogWriter => { h with hasLogWriter := true }
  | HOption.withWaitGroup => { h with hasExternalWaitGroup := true }
  | HOption.withProvisionalLogDelay d => { h with provisionalLogDelay := d }

theorem foldlM_applyOption (opts : List HOption) (h : HandlerConfig) :
    opts.foldlM applyOption h = Except.ok (opts.foldl applyPure h) := by
  induction opts generalizing h with
  | nil => rfl
  | cons o os ih =>
    cases o <;>
      simp [List.foldlM, List.foldl, applyOption, applyPure, ih, Bind.bind, Except.bind]

theorem foldl_no_writer (opts : List HOption) (h : HandlerConfig)
    (hmem : HOption.withLogWriter ∉ opts) :
    (opts.foldl applyPure h).hasLogWriter = h.hasLogWriter := by
  induction opts generalizing h with
  | nil => rfl
  | cons o os ih =>
    have ho : o ≠ HOption.withLogWriter := by
      intro he; exact hmem (by simp [he])
    have hos : HOption.withLogWriter ∉ os := fun hc => hmem (by simp [hc])
    cases o with
    | withLogWriter => exact absurd rfl ho
    | withWaitGroup => simpa [List.foldl, applyPure] using ih _ hos
    | withProvisionalLogDelay d => simpa [List.foldl, applyPure] using ih _ hos

theorem foldl_no_delay (opts : List HOption) (h : HandlerConfig)
    (hmem : ∀ d, HOption.withProvisionalLogDelay d ∉ opts) :
    (opts.foldl applyPure h).provisionalLogDelay = h.provisionalLogDelay := by
  induction opts generalizing h with
  | nil => rfl
  | cons o os ih =>
    have hos : ∀ d, HOption.withProvisionalLogDelay d ∉ os := by
      intro d hc; exact hmem d (by simp [hc])
    cases o with
    | withLogWriter => simpa [List.foldl, applyPure] using ih _ hos
    | withWaitGroup => simpa [List.foldl, applyPure] using ih _ hos
    | withProvisionalLogDelay d => exact absurd (by simp) (hmem d)

theorem foldl_keeps_writer (os : List HOption) :
    ∀ (h2 : HandlerConfig), h2.hasLogWriter = true →
      (os.foldl applyPure h2).hasLogWriter = true := by
  induction os with
  | nil => intro h2 hh; simpa using hh
  | cons p ps ihp =>
    intro h2 hh
    rw [List.foldl_cons]
    cases p with
    | withLogWriter => exact ihp _ rfl
    | withWaitGroup => exact ihp _ (by simpa [applyPure] using hh)
    | withProvisionalLogDelay d => exact ihp _ (by simpa [applyPure] using hh)

theorem foldl_writer_mem (opts : List HOption) (h : HandlerConfig)
    (hmem : HOption.withLogWriter ∈ opts) :
    (opts.foldl applyPure h).hasLogWriter = true := by
  induction opts generalizing h with
  | nil => simp at hmem
  | cons o os ih =>
    rw [List.foldl_cons]
    by_cases ho : o = HOption.withLogWriter
    · subst ho
      exact foldl_keeps_writer os _ rfl
    · have hos : HOption.withLogWriter ∈ os := by
        rcases List.mem_cons.mp hmem with h1 | h1
        · exact absurd h1.symm ho
        · exact h1
      exact ih _ hos

end Construction

namespace Tracker

/-- First-some-else-default combination used to state which write error
survives a sequence of writes. -/
def overrideWith (dflt : Option String) : Option String → Option String
  | some e => some e
  | none => dflt

end Tracker

/-- C4: the terminal record's trailing fields are, in order: status, bytes
written, elapsed seconds, the write-error text or the empty string, and an
association field that is empty when the provisional timer was canceled
before firing and carries the end marker with the 8-digit hex request
identifier when the timer had already fired. -/
theorem c4_terminal_trailing_fields (pf : List String) (t : Tracker.ReqTracker)
    (ns : Nat) (stopOk : Bool) (hid : t.requestId < 2 ^ 32) :
    Tracker.terminalRecord pf t ns stopOk =
      pf ++ [toString t.status, toString t.written, Tracker.formatElapsedSeconds ns,
             Tracker.errText t.writeErr,
             if stopOk then "" else "<- " ++ Tracker.hexId t.requestId] ∧
    (Tracker.hexPad8 t.requestId).length = 8 := by
  constructor
  · rw [Tracker.terminalRecord, Tracker.onAfterSuffix]
    cases ht : t.writeErr <;> cases stopOk <;> simp [Tracker.errText, ht]
  · exact Tracker.hexPad8_length _ hid

/-- C4 witness: a fast request with identifier 2, status 200 and 2 MiB
written, whose timer was canceled in time. -/
theorem c4_terminal_trailing_fields_witness :
    2 < 2 ^ 32 ∧
    (Tracker.terminalRecord [] ⟨2, 200, 2097152, none⟩ 50000000 true =
      [] ++ [toString (200 : Int), toString (2097152 : Int),
             Tracker.formatElapsedSeconds 50000000, Tracker.errText none,
             if true then "" else "<- " ++ Tracker.hexId 2] ∧
     (Tracker.hexPad8 2).length = 8) :=
  ⟨by decide,
   c4_terminal_trailing_fields [] ⟨2, 200, 2097152, none⟩ 50000000 true (by decide)⟩

/-- C6 counterexample: two failing writes in sequence; the tracker keeps the
second (last) error, not the first, so the set-once reading of the
write-error field is false on the code. -/
theorem c6_first_error_not_kept :
    (Tracker.loggerWrites { written := 0, writeErr := none }
        [(3, some "broken pipe"), (4, some "connection reset")]).writeErr =
      some "connection reset" ∧
    ¬ (Tracker.loggerWrites { written := 0, writeErr := none }
        [(3, some "broken pipe"), (4, some "connection reset")]).writeErr =
      some "broken pipe" := by
  exact ⟨rfl, by decide⟩

/-- C6 as amended: the tracker's write-error field holds the most recent
non-nil write error (each failing write overwrites it), and the byte
accumulator is the sum of all reported write counts. -/
theorem c6_last_error_recorded (st : Tracker.WState) (ws : List Tracker.WriteResult) :
    (Tracker.loggerWrites st ws).written = st.written + (ws.map Prod.fst).sum ∧
    (Tracker.loggerWrites st ws).writeErr =
      Tracker.overrideWith st.writeErr ((ws.filterMap Prod.snd).getLast?) := by
  induction ws generalizing st with
  | nil => simp [Tracker.loggerWrites, Tracker.overrideWith]
  | cons w ws ih =>
    obtain ⟨n, err⟩ := w
    have hfold : Tracker.loggerWrites st ((n, err) :: ws) =
        Tracker.loggerWrites (Tracker.loggerWrite st (n, err)) ws := rfl
    rw [hfold]
    obtain ⟨ih1, ih2⟩ := ih (Tracker.loggerWrite st (n, err))
    constructor
    · rw [ih1]
      cases err <;> simp [Tracker.loggerWrite] <;> ring
    · rw [ih2]
      cases err with
      | none => simp [Tracker.loggerWrite, List.filterMap_cons]
      | some e =>
        simp only [Tracker.loggerWrite, List.filterMap_cons]
        cases hL : ws.filterMap Prod.snd with
        | nil => simp [Tracker.overrideWith]
        | cons b L2 =>
          rw [List.getLast?_cons_cons]
          cases hg : (b :: L2).getLast? with
          | none => exact absurd (List.getLast?_eq_none_iff.mp hg) (by simp)
          | some x => simp [Tracker.overrideWith]

/-- C8 counterexample: a sink whose write succeeds but whose explicit
flusher fails; the record-writing operation completes normally and the
flush error is discarded, so a flush I/O error is not treated as fatal. -/
theorem c8_flush_error_not_fatal :
    FormatWriter.write
      { writeErr := none, hasFlusher := true, flushErr := some "flush failure" }
      { buffer := [], output := [] } [['a']] =
    Except.ok { buffer := [], output := ['a', '\n'] } := rfl

/-- C8 as amended: an I/O error reported by the sink's write is fatal
(panic) for every record-writing operation of the format writer — the error
propagates unchanged, the record is not retried and not dropped silently —
while the optional flusher's own error is discarded. -/
theorem c8_sink_write_error_fatal (s : FormatWriter.GoSink)
    (st : FormatWriter.WriterState) (fields : List (List Char))
    (comment : List Char) (e : String) (h : s.writeErr = some e) :
    FormatWriter.write s st fields = Except.error e ∧
    FormatWriter.writeCommented s st fields = Except.error e ∧
    FormatWriter.writeComment s st comment = Except.error e := by
  refine ⟨?_, ?_, ?_⟩ <;>
    simp [FormatWriter.write, FormatWriter.writeCommented,
      FormatWriter.writeComment, FormatWriter.sendBuffer, h]

/-- C8 witness: a concrete sink whose write fails makes all three
record-writing operations fail with that error. -/
theorem c8_sink_write_error_fatal_witness :
    ({ writeErr := some "sink gone", hasFlusher := false, flushErr := none } :
        FormatWriter.GoSink).writeErr = some "sink gone" ∧
    (FormatWriter.write
        { writeErr := some "sink gone", hasFlusher := false, flushErr := none }
        { buffer := [], output := [] } [['a']] = Except.error "sink gone" ∧
     FormatWriter.writeCommented
        { writeErr := some "sink gone", hasFlusher := false, flushErr := none }
        { buffer := [], output := [] } [['a']] = Except.error "sink gone" ∧
     FormatWriter.writeComment
        { writeErr := some "sink gone", hasFlusher := false, flushErr := none }
        { buffer := [], output := [] } ['h', 'i'] = Except.error "sink gone") :=
  ⟨rfl, c8_sink_write_error_fatal _ _ [['a']] ['h', 'i'] "sink gone" rfl⟩

/-- C9: construction rejects an unsupported log format and a missing format
writer with descriptive errors (no handler is produced), and on success the
provisional-log delay defaults to one second unless a delay option
overrides it. -/
theorem c9_construction :
    (∀ (format : Int) (opts : List Construction.HOption), format ≠ 0 →
      Construction.newHandler format opts = Except.error "unsupported log format") ∧
    (∀ opts : List Construction.HOption,
      Construction.HOption.withLogWriter ∉ opts →
      Construction.newHandler 0 opts = Except.error "a log writer must be specified") ∧
    (∀ opts : List Construction.HOption,
      Construction.HOption.withLogWriter ∈ opts →
      (∀ d, Construction.HOption.withProvisionalLogDelay d ∉ opts) →
      ∃ h, Construction.newHandler 0 opts = Except.ok h ∧
        h.provisionalLogDelay = Construction.second) ∧
    (∀ d : Int, Construction.newHandler 0
        [Construction.HOption.withLogWriter,
         Construction.HOption.withProvisionalLogDelay d] =
      Except.ok { hasLogWriter := true, hasExternalWaitGroup := false,
                  provisionalLogDelay := d }) := by
  refine ⟨?_, ?_, ?_, ?_⟩
  · intro format opts hfmt
    simp [Construction.newHandler, hfmt]
  · intro opts hmem
    rw [Construction.newHandler]
    simp only [ne_eq, not_true_eq_false, if_false]
    rw [Construction.foldlM_applyOption]
    have h1 : (opts.foldl Construction.applyPure Construction.initialConfig).hasLogWriter =
        false :=
      Construction.foldl_no_writer opts Construction.initialConfig hmem
    simp [h1]
  · intro opts hmem hdel
    rw [Construction.newHandler]
    simp only [ne_eq, not_true_eq_false, if_false]
    rw [Construction.foldlM_applyOption]
    have h1 := Construction.foldl_writer_mem opts Construction.initialConfig hmem
    have h2 := Construction.foldl_no_delay opts Construction.initialConfig hdel
    refine ⟨opts.foldl Construction.applyPure Construction.initialConfig, ?_, ?_⟩
    · simp [h1]
    · simpa [Construction.initialConfig] using h2
  · intro d
    rfl

/-- C9 witness: a concrete unsupported format is rejected with the
descriptive error. -/
theorem c9_construction_witness :
    (1 : Int) ≠ 0 ∧
    Construction.newHandler 1 [] = Except.error "unsupported log format" :=
  ⟨by decide, c9_construction.1 1 [] (by decide)⟩

namespace HandlerModel

/-- State of the provisional timer created by `time.AfterFunc` in
`OnBeforeHandle`: `armed` means `Stop` would still succeed; `fired1` means
the runtime timer expired (from now on `Stop` returns false) but the
callback has not run; `fired2` means the callback wrote the provisional
record and its deferred `Done` is pending; `firedDone` means the callback
finished; `stopped` means `Stop` succeeded. -/
inductive TState
  | idle
  | armed
  | fired1
  | fired2
  | firedDone
  | stopped
deriving DecidableEq, Repr

/-- Program counter of one request goroutine through `Handler.ServeHTTP`,
`w3cLogger.OnBeforeHandle` and `w3cLogger.OnAfterHandle`, one shared-state
access per position. -/
inductive RPC
  | wgAdd
  | getId
  | hdr1
  | hdr2
  | hdr3
  | tAdd
  | arm
  | handle
  | stop
  | tDone
  | emit (fired : Bool)
  | wgDone
  | done
  | hijackStuck
deriving DecidableEq, Repr

/-- Net effect of the wrapped handler on one request's tracker, plus whether
the handler tries to obtain an `http.Hijacker` from its response writer. -/
structure HandlerOutcome where
  status : Int
  written : Int
  werr : Option String
  attemptsHijack : Bool
deriving DecidableEq, Repr

/-- Local state of one request goroutine and its timer. -/
structure ReqState where
  pc : RPC
  rid : Int
  timer : TState
  status : Int
  written : Int
  werr : Option String
  inp : HandlerOutcome
deriving DecidableEq, Repr

/-- One record appended atomically to the log output (the format writer's
mutex serializes appends). -/
inductive Entry
  | headerLine (k : Nat)
  | prov (rid : Int)
  | term (rid : Int) (status : Int) (written : Int) (werr : Option String) (fired : Bool)
deriving DecidableEq, Repr

def Entry.isHeader : Entry → Bool
  | Entry.headerLine _ => true
  | _ => false

def Entry.isTermOf (v : Int) : Entry → Bool
  | Entry.term rid _ _ _ _ => rid = v
  | _ => false

def Entry.isProvOf (v : Int) : Entry → Bool
  | Entry.prov rid => rid = v
  | _ => false

def Entry.isTermEntry : Entry → Bool
  | Entry.term _ _ _ _ _ => true
  | _ => false

/-- Shared state: the atomic request counter, the wait group counter, the
serialized log, and each goroutine's local state. -/
structure Sys where
  counter : Int
  wg : Int
  log : List Entry
  reqs : Nat → ReqState

/-- Pointwise update of the request array. -/
def upd (f : Nat → ReqState) (i : Nat) (v : ReqState) : Nat → ReqState :=
  fun j => if j = i then v else f j

/-- A request before its goroutine runs; `Init` sets the status to 200. -/
def initReq (inp : HandlerOutcome) : ReqState :=
  { pc := RPC.wgAdd, rid := 0, timer := TState.idle, status := 200,
    written := 0, werr := none, inp := inp }

def initSys (inputs : Nat → HandlerOutcome) : Sys :=
  { counter := 0, wg := 0, log := [], reqs := fun i => initReq (inputs i) }

/-- The method set of `w3cLogger`: the value `ServeHTTP` passes as the
response writer declares exactly these methods, and no `Hijack`. -/
def w3cLoggerMethodSet : List String :=
  ["Header", "Write", "WriteHeader", "Init", "MakePrefixFields",
   "OnBeforeHandle", "OnAfterHandle"]

/-- Go's interface type assertion `w.(http.Hijacker)` succeeds exactly when
the dynamic type's method set contains `Hijack`. -/
def goHasHijack (methods : List String) : Bool := methods.contains "Hijack"

/-- One step of a request goroutine, by its program counter.  Transcribed
from `Handler.ServeHTTP` (wg.Add, id assignment, the three header comments
when the id is 1), `OnBeforeHandle` (wg.Add then arming the timer), the
wrapped handler call (which may attempt a hijack type assertion), and
`OnAfterHandle` (`Stop`, the conditional `Done`, the terminal write)
followed by the deferred `wg.Done` of `ServeHTTP`. -/
def stepReq (n : Nat) (s : Sys) (i : Nat) : Sys :=
  if i < n then
    let r := s.reqs i
    match r.pc with
    | RPC.wgAdd =>
        { s with wg := s.wg + 1, reqs := upd s.reqs i { r with pc := RPC.getId } }
    | RPC.getId =>
        let newId := s.counter + 1
        { s with counter := newId,
                 reqs := upd s.reqs i
                   { r with rid := newId,
                            pc := if newId = 1 then RPC.hdr1 else RPC.tAdd } }
    | RPC.hdr1 =>
        { s with log := s.log ++ [Entry.headerLine 1],
                 reqs := upd s.reqs i { r with pc := RPC.hdr2 } }
    | RPC.hdr2 =>
        { s with log := s.log ++ [Entry.headerLine 2],
                 reqs := upd s.reqs i { r with pc := RPC.hdr3 } }
    | RPC.hdr3 =>
        { s with log := s.log ++ [Entry.headerLine 3],
                 reqs := upd s.reqs i { r with pc := RPC.tAdd } }
    | RPC.tAdd =>
        { s with wg := s.wg + 1, reqs := upd s.reqs i { r with pc := RPC.arm } }
    | RPC.arm =>
        { s with reqs := upd s.reqs i { r with timer := TState.armed, pc := RPC.handle } }
    | RPC.handle =>
        if r.inp.attemptsHijack && goHasHijack w3cLoggerMethodSet then
          { s with reqs := upd s.reqs i { r with pc := RPC.hijackStuck } }
        else
          let r2 : ReqState :=
            { r with status := r.inp.status, written := r.inp.written,
                     werr := r.inp.werr, pc := RPC.stop }
          { s with reqs := upd s.reqs i r2 }
    | RPC.stop =>
        if r.timer = TState.armed then
          { s with reqs := upd s.reqs i { r with timer := TState.stopped, pc := RPC.tDone } }
        else
          { s with reqs := upd s.reqs i { r with pc := RPC.emit true } }
    | RPC.tDone =>
        { s with wg := s.wg - 1, reqs := upd s.reqs i { r with pc := RPC.emit false } }
    | RPC.emit fired =>
        { s with log := s.log ++ [Entry.term r.rid r.status r.written r.werr fired],
                 reqs := upd s.reqs i { r with pc := RPC.wgDone } }
    | RPC.wgDone =>
        { s with wg := s.wg - 1, reqs := upd s.reqs i { r with pc := RPC.done } }
    | RPC.done => s
    | RPC.hijackStuck => s
  else s

/-- One step of a timer goroutine: expiry (after which `Stop` fails), the
provisional `WriteCommented`, then the deferred `WaitGroup.Done`. -/
def stepTimer (n : Nat) (s : Sys) (i : Nat) : Sys :=
  if i < n then
    let r := s.reqs i
    match r.timer with
    | TState.armed =>
        { s with reqs := upd s.reqs i { r with timer := TState.fired1 } }
    | TState.fired1 =>
        { s with log := s.log ++ [Entry.prov r.rid],
                 reqs := upd s.reqs i { r with timer := TState.fired2 } }
    | TState.fired2 =>
        { s with wg := s.wg - 1,
                 reqs := upd s.reqs i { r with timer := TState.firedDone } }
    | _ => s
  else s

/-- A schedule names which goroutine performs the next atomic step. -/
inductive Label
  | rstep (i : Nat)
  | tstep (i : Nat)
deriving DecidableEq, Repr

def step (n : Nat) (s : Sys) : Label → Sys
  | Label.rstep i => stepReq n s i
  | Label.tstep i => stepTimer n s i

/-- Execution of a schedule from the initial state. -/
def run (n : Nat) (inputs : Nat → HandlerOutcome) (sched : List Label) : Sys :=
  sched.foldl (step n) (initSys inputs)

/-- Whether the request identifier has been assigned. -/
def gotId : RPC → Bool
  | RPC.wgAdd => false
  | RPC.getId => false
  | _ => true

/-- The request's own wait-group unit: held from `wg.Add(1)` until the
deferred `wg.Done()`. -/
def reqUnit : RPC → Int
  | RPC.wgAdd => 0
  | RPC.done => 0
  | _ => 1

/-- Whether `OnBeforeHandle`'s `wg.Add(1)` for the timer has executed. -/
def timerAdded : RPC → Bool
  | RPC.wgAdd => false
  | RPC.getId => false
  | RPC.hdr1 => false
  | RPC.hdr2 => false
  | RPC.hdr3 => false
  | RPC.tAdd => false
  | _ => true

/-- Whether the timer's wait-group unit has been released, either by the
timer callback's deferred `Done` or by `OnAfterHandle`'s `Done` after a
successful `Stop`. -/
def timerReleased (r : ReqState) : Bool :=
  r.timer = TState.firedDone || (r.timer = TState.stopped && !(r.pc = RPC.tDone))

def timerUnit (r : ReqState) : Int :=
  if timerAdded r.pc && !(timerReleased r) then 1 else 0

/-- Outstanding wait-group units attributable to one request. -/
def units (r : ReqState) : Int := reqUnit r.pc + timerUnit r

/-- How many terminal records this goroutine has written, as a function of
its program counter. -/
def termEmitted : RPC → Nat
  | RPC.wgDone => 1
  | RPC.done => 1
  | _ => 0

/-- How many provisional records this request's timer has written. -/
def provEmitted : TState → Nat
  | TState.fired2 => 1
  | TState.firedDone => 1
  | _ => 0

/-- How many header comment lines this goroutine has written (meaningful
only for the goroutine holding identifier 1). -/
def hdrEmitted : RPC → Nat
  | RPC.wgAdd => 0
  | RPC.getId => 0
  | RPC.hdr1 => 0
  | RPC.hdr2 => 1
  | RPC.hdr3 => 2
  | _ => 3

/-- True when no header line occurs after the first terminal record of
request 1 in the log. -/
def noHeaderAfterTerm1 : List Entry → Bool
  | [] => true
  | e :: rest =>
      if Entry.isTermOf 1 e then rest.all (fun x => !(Entry.isHeader x))
      else noHeaderAfterTerm1 rest

end HandlerModel

namespace HandlerModel

/-- Whether the arming of the timer has executed. -/
def armedYet : RPC → Bool
  | RPC.wgAdd => false
  | RPC.getId => false
  | RPC.hdr1 => false
  | RPC.hdr2 => false
  | RPC.hdr3 => false
  | RPC.tAdd => false
  | RPC.arm => false
  | _ => true

/-- Header-line contribution of one goroutine to the log. -/
def hdrContrib (r : ReqState) : Nat :=
  if r.rid = 1 then hdrEmitted r.pc else 0

def gotIdInt (r : ReqState) : Int := if gotId r.pc then 1 else 0

theorem countP_append_singleton (l : List Entry) (e : Entry) (p : Entry → Bool) :
    (l ++ [e]).countP p = l.countP p + (if p e then 1 else 0) := by
  rw [List.countP_append]
  simp [List.countP_cons]

theorem sum_upd (n : Nat) (f : Nat → ReqState) (i : Nat) (hi : i < n)
    (v : ReqState) (g : ReqState → Int) :
    (∑ j in Finset.range n, g (upd f i v j)) =
      (∑ j in Finset.range n, g (f j)) + (g v - g (f i)) := by
  have hmem : i ∈ Finset.range n := Finset.mem_range.mpr hi
  rw [← Finset.add_sum_erase _ (fun j => g (upd f i v j)) hmem,
      ← Finset.add_sum_erase _ (fun j => g (f j)) hmem]
  have h2 : ∀ j ∈ (Finset.range n).erase i, g (upd f i v j) = g (f j) := by
    intro j hj
    have hne : j ≠ i := (Finset.mem_erase.mp hj).1
    simp [upd, hne]
  rw [Finset.sum_congr rfl h2]
  have h1 : upd f i v i = v := by simp [upd]
  rw [h1]
  ring

theorem sum_upd_nat (n : Nat) (f : Nat → ReqState) (i : Nat) (hi : i < n)
    (v : ReqState) (g : ReqState → Nat) :
    (∑ j in Finset.range n, g (upd f i v j)) + g (f i) =
      (∑ j in Finset.range n, g (f j)) + g v := by
  have hmem : i ∈ Finset.range n := Finset.mem_range.mpr hi
  rw [← Finset.add_sum_erase _ (fun j => g (upd f i v j)) hmem,
      ← Finset.add_sum_erase _ (fun j => g (f j)) hmem]
  have h2 : ∀ j ∈ (Finset.range n).erase i, g (upd f i v j) = g (f j) := by
    intro j hj
    have hne : j ≠ i := (Finset.mem_erase.mp hj).1
    simp [upd, hne]
  rw [Finset.sum_congr rfl h2]
  have h1 : upd f i v i = v := by simp [upd]
  rw [h1]
  omega

theorem noHeaderAfter_of_no_term1 (l : List Entry) (e : Entry)
    (h : l.countP (Entry.isTermOf 1) = 0) :
    noHeaderAfterTerm1 (l ++ [e]) = true := by
  induction l with
  | nil =>
    by_cases he : Entry.isTermOf 1 e
    · simp [noHeaderAfterTerm1, he]
    · simp [noHeaderAfterTerm1, he]
  | cons x l ih =>
    rw [List.countP_cons] at h
    have hx : Entry.isTermOf 1 x = false := by
      by_cases hb : Entry.isTermOf 1 x
      · rw [hb] at h; simp at h
      · simpa using hb
    have hl : l.countP (Entry.isTermOf 1) = 0 := by
      rw [hx] at h
      simpa using h
    simp only [List.cons_append, noHeaderAfterTerm1, hx, Bool.false_eq_true, if_false]
    exact ih hl

theorem noHeaderAfter_append_nonheader (l : List Entry) (e : Entry)
    (h : noHeaderAfterTerm1 l = true) (he : Entry.isHeader e = false) :
    noHeaderAfterTerm1 (l ++ [e]) = true := by
  induction l with
  | nil =>
    by_cases ht : Entry.isTermOf 1 e
    · simp [noHeaderAfterTerm1, ht]
    · simp [noHeaderAfterTerm1, ht]
  | cons x l ih =>
    rw [noHeaderAfterTerm1] at h
    by_cases hx : Entry.isTermOf 1 x
    · rw [if_pos hx] at h
      simp only [List.cons_append, noHeaderAfterTerm1, hx, if_true]
      rw [show l.append [e] = l ++ [e] from rfl, List.all_append]
      simp [h, he]
    · rw [if_neg hx] at h
      simp only [List.cons_append, noHeaderAfterTerm1, hx, Bool.false_eq_true, if_false]
      exact ih h

/-- The inductive invariant of the interleaving semantics. -/
structure Inv (n : Nat) (s : Sys) : Prop where
  counter_eq : s.counter = ∑ j in Finset.range n, gotIdInt (s.reqs j)
  rid_bounds : ∀ i, i < n → gotId (s.reqs i).pc = true →
      1 ≤ (s.reqs i).rid ∧ (s.reqs i).rid ≤ s.counter
  rid_inj : ∀ i, i < n → ∀ j, j < n → i ≠ j → gotId (s.reqs i).pc = true →
      gotId (s.reqs j).pc = true → (s.reqs i).rid ≠ (s.reqs j).rid
  hdr_rid : ∀ i, i < n →
      ((s.reqs i).pc = RPC.hdr1 ∨ (s.reqs i).pc = RPC.hdr2 ∨
        (s.reqs i).pc = RPC.hdr3) →
      (s.reqs i).rid = 1
  tdone_timer : ∀ i, i < n → (s.reqs i).pc = RPC.tDone →
      (s.reqs i).timer = TState.stopped
  timer_idle_iff : ∀ i, i < n →
      ((s.reqs i).timer = TState.idle ↔ armedYet (s.reqs i).pc = false)
  wg_eq : s.wg = ∑ j in Finset.range n, units (s.reqs j)
  term_count : ∀ i, i < n → gotId (s.reqs i).pc = true →
      s.log.countP (Entry.isTermOf (s.reqs i).rid) = termEmitted (s.reqs i).pc
  prov_count : ∀ i, i < n → gotId (s.reqs i).pc = true →
      s.log.countP (Entry.isProvOf (s.reqs i).rid) = provEmitted (s.reqs i).timer
  fresh_id : ∀ v : Int, s.counter < v →
      s.log.countP (Entry.isTermOf v) = 0 ∧ s.log.countP (Entry.isProvOf v) = 0
  hdr_count : s.log.countP Entry.isHeader = ∑ j in Finset.range n, hdrContrib (s.reqs j)
  no_hdr_after : noHeaderAfterTerm1 s.log = true

theorem inv_init (n : Nat) (inputs : Nat → HandlerOutcome) : Inv n (initSys inputs) := by
  refine ⟨?_, ?_, ?_, ?_, ?_, ?_, ?_, ?_, ?_, ?_, ?_, ?_⟩ <;>
    simp [initSys, initReq, gotIdInt, gotId, units, reqUnit, timerUnit, timerAdded,
      armedYet, hdrContrib, hdrEmitted, noHeaderAfterTerm1]

end HandlerModel

namespace HandlerModel

theorem upd_self (f : Nat → ReqState) (i : Nat) (v : ReqState) : upd f i v i = v := by
  simp [upd]

theorem upd_other (f : Nat → ReqState) (i : Nat) (v : ReqState) (j : Nat) (h : j ≠ i) :
    upd f i v j = f j := by
  simp [upd, h]

theorem gotId_of_armedYet (pc : RPC) (h : armedYet pc = true) : gotId pc = true := by
  cases pc <;> simp [armedYet, gotId] at h ⊢

theorem timerAdded_of_armedYet (pc : RPC) (h : armedYet pc = true) : timerAdded pc = true := by
  cases pc <;> simp [armedYet, timerAdded] at h ⊢

theorem counter_nonneg (n : Nat) (s : Sys) (h : Inv n s) : 0 ≤ s.counter := by
  rw [h.counter_eq]
  apply Finset.sum_nonneg
  intro k _
  rw [gotIdInt]
  split <;> omega

theorem countP_append_not (l : List Entry) (e : Entry) (p : Entry → Bool)
    (hne : p e = false) : (l ++ [e]).countP p = l.countP p := by
  rw [countP_append_singleton, hne]
  simp

theorem counter_upd (n : Nat) (s : Sys) (i : Nat) (hi : i < n) (v : ReqState)
    (h : Inv n s) (hcv : gotIdInt v = gotIdInt (s.reqs i)) :
    s.counter = ∑ j in Finset.range n, gotIdInt (upd s.reqs i v j) := by
  rw [sum_upd n s.reqs i hi v gotIdInt, ← h.counter_eq, hcv]
  ring

theorem wg_upd_same (n : Nat) (s : Sys) (i : Nat) (hi : i < n) (v : ReqState)
    (h : Inv n s) (hcv : units v = units (s.reqs i)) :
    s.wg = ∑ j in Finset.range n, units (upd s.reqs i v j) := by
  rw [sum_upd n s.reqs i hi v units, ← h.wg_eq, hcv]
  ring

theorem wg_upd_add (n : Nat) (s : Sys) (i : Nat) (hi : i < n) (v : ReqState)
    (h : Inv n s) (hcv : units v = units (s.reqs i) + 1) :
    s.wg + 1 = ∑ j in Finset.range n, units (upd s.reqs i v j) := by
  rw [sum_upd n s.reqs i hi v units, ← h.wg_eq, hcv]
  ring

theorem wg_upd_sub (n : Nat) (s : Sys) (i : Nat) (hi : i < n) (v : ReqState)
    (h : Inv n s) (hcv : units v = units (s.reqs i) - 1) :
    s.wg - 1 = ∑ j in Finset.range n, units (upd s.reqs i v j) := by
  rw [sum_upd n s.reqs i hi v units, ← h.wg_eq, hcv]
  ring

theorem hdr_count_upd (n : Nat) (s : Sys) (i : Nat) (hi : i < n) (v : ReqState)
    (h : Inv n s) (hcv : hdrContrib v = hdrContrib (s.reqs i)) :
    List.countP Entry.isHeader s.log = ∑ j in Finset.range n, hdrContrib (upd s.reqs i v j) := by
  have hs := sum_upd_nat n s.reqs i hi v hdrContrib
  rw [h.hdr_count]
  omega

theorem inv_stepReq (n : Nat) (s : Sys) (i : Nat) (h : Inv n s) :
    Inv n (stepReq n s i) := by
  by_cases hi : i < n
  swap
  · simpa [stepReq, hi] using h
  cases hpc : (s.reqs i).pc with
  | wgAdd =>
    simp only [stepReq, if_pos hi, hpc]
    refine ⟨?_, ?_, ?_, ?_, ?_, ?_, ?_, ?_, ?_, ?_, ?_, ?_⟩ <;> dsimp only
    · rw [sum_upd n s.reqs i hi _ gotIdInt, ← h.counter_eq]
      simp [gotIdInt, gotId, hpc]
    · intro j hj hg
      by_cases hji : j = i
      · subst hji; rw [upd_self] at hg; simp [gotId] at hg
      · rw [upd_other _ _ _ _ hji] at hg ⊢; exact h.rid_bounds j hj hg
    · intro j hj k hk hjk hgj hgk
      by_cases hji : j = i
      · subst hji; rw [upd_self] at hgj; simp [gotId] at hgj
      · by_cases hki : k = i
        · subst hki; rw [upd_self] at hgk; simp [gotId] at hgk
        · rw [upd_other _ _ _ _ hji] at hgj ⊢
          rw [upd_other _ _ _ _ hki] at hgk ⊢
          exact h.rid_inj j hj k hk hjk hgj hgk
    · intro j hj hp
      by_cases hji : j = i
      · subst hji; rw [upd_self] at hp; simp at hp
      · rw [upd_other _ _ _ _ hji] at hp ⊢; exact h.hdr_rid j hj hp
    · intro j hj hp
      by_cases hji : j = i
      · subst hji; rw [upd_self] at hp; simp at hp
      · rw [upd_other _ _ _ _ hji] at hp ⊢; exact h.tdone_timer j hj hp
    · intro j hj
      by_cases hji : j = i
      · subst hji
        have ht : (s.reqs j).timer = TState.idle :=
          (h.timer_idle_iff j hj).mpr (by rw [hpc]; rfl)
        rw [upd_self]
        simp [armedYet, ht]
      · rw [upd_other _ _ _ _ hji]; exact h.timer_idle_iff j hj
    · rw [sum_upd n s.reqs i hi _ units, ← h.wg_eq]
      simp [units, reqUnit, timerUnit, timerAdded, hpc]
    · intro j hj hg
      by_cases hji : j = i
      · subst hji; rw [upd_self] at hg; simp [gotId] at hg
      · rw [upd_other _ _ _ _ hji] at hg ⊢; exact h.term_count j hj hg
    · intro j hj hg
      by_cases hji : j = i
      · subst hji; rw [upd_self] at hg; simp [gotId] at hg
      · rw [upd_other _ _ _ _ hji] at hg ⊢; exact h.prov_count j hj hg
    · exact h.fresh_id
    · have hs := sum_upd_nat n s.reqs i hi
        { pc := RPC.getId, rid := (s.reqs i).rid, timer := (s.reqs i).timer,
          status := (s.reqs i).status, written := (s.reqs i).written,
          werr := (s.reqs i).werr, inp := (s.reqs i).inp } hdrContrib
      have hcontrib : hdrContrib
          { pc := RPC.getId, rid := (s.reqs i).rid, timer := (s.reqs i).timer,
            status := (s.reqs i).status, written := (s.reqs i).written,
            werr := (s.reqs i).werr, inp := (s.reqs i).inp } =
          hdrContrib (s.reqs i) := by
        simp [hdrContrib, hdrEmitted, hpc]
      rw [h.hdr_count]
      omega
    · exact h.no_hdr_after
  | getId =>
    have hnn : 0 ≤ s.counter := counter_nonneg n s h
    have htid : (s.reqs i).timer = TState.idle :=
      (h.timer_idle_iff i hi).mpr (by rw [hpc]; rfl)
    have hmain : ∀ newpc : RPC,
        (newpc = RPC.hdr1 ∧ s.counter + 1 = 1) ∨
          (newpc = RPC.tAdd ∧ s.counter + 1 ≠ 1) →
        Inv n (Sys.mk (s.counter + 1) s.wg s.log (upd s.reqs i
          (ReqState.mk newpc (s.counter + 1) (s.reqs i).timer (s.reqs i).status
            (s.reqs i).written (s.reqs i).werr (s.reqs i).inp))) := by
      intro newpc hcs
      have hnp : newpc = RPC.hdr1 ∨ newpc = RPC.tAdd := by
        rcases hcs with ⟨h1, _⟩ | ⟨h1, _⟩
        · exact Or.inl h1
        · exact Or.inr h1
      have hh1 : newpc = RPC.hdr1 → s.counter + 1 = 1 := by
        intro hx
        rcases hcs with ⟨_, h2⟩ | ⟨h1, _⟩
        · exact h2
        · rw [h1] at hx; exact absurd hx (by decide)
      have hgv : gotId newpc = true := by rcases hnp with h1 | h1 <;> rw [h1] <;> rfl
      have hte : termEmitted newpc = 0 := by rcases hnp with h1 | h1 <;> rw [h1] <;> rfl
      have hta : timerAdded newpc = false := by rcases hnp with h1 | h1 <;> rw [h1] <;> rfl
      have hay : armedYet newpc = false := by rcases hnp with h1 | h1 <;> rw [h1] <;> rfl
      have hre : reqUnit newpc = 1 := by rcases hnp with h1 | h1 <;> rw [h1] <;> rfl
      have hnh1 : newpc ≠ RPC.hdr2 := by rcases hnp with h1 | h1 <;> rw [h1] <;> decide
      have hnh2 : newpc ≠ RPC.hdr3 := by rcases hnp with h1 | h1 <;> rw [h1] <;> decide
      have hnt : newpc ≠ RPC.tDone := by rcases hnp with h1 | h1 <;> rw [h1] <;> decide
      have hgrF : gotId RPC.getId = false := rfl
      have hruG : reqUnit RPC.getId = 1 := rfl
      have htaG : timerAdded RPC.getId = false := rfl
      refine ⟨?_, ?_, ?_, ?_, ?_, ?_, ?_, ?_, ?_, ?_, ?_, ?_⟩ <;> dsimp only
      · rw [sum_upd n s.reqs i hi _ gotIdInt, ← h.counter_eq]
        simp only [gotIdInt, hpc, hgv, hgrF]
        simp
      · intro j hj hg
        by_cases hji : j = i
        · subst hji
          rw [upd_self]
          dsimp only
          omega
        · rw [upd_other _ _ _ _ hji] at hg ⊢
          have := h.rid_bounds j hj hg
          omega
      · intro j hj k hk hjk hgj hgk
        by_cases hji : j = i
        · subst hji
          rw [upd_self] at hgj ⊢
          by_cases hki : k = j
          · exact absurd hki.symm hjk
          · rw [upd_other _ _ _ _ hki] at hgk ⊢
            have := (h.rid_bounds k hk hgk).2
            dsimp only
            omega
        · by_cases hki : k = i
          · subst hki
            rw [upd_self] at hgk ⊢
            rw [upd_other _ _ _ _ hji] at hgj ⊢
            have := (h.rid_bounds j hj hgj).2
            dsimp only
            omega
          · rw [upd_other _ _ _ _ hji] at hgj ⊢
            rw [upd_other _ _ _ _ hki] at hgk ⊢
            exact h.rid_inj j hj k hk hjk hgj hgk
      · intro j hj hp
        by_cases hji : j = i
        · subst hji
          rw [upd_self] at hp ⊢
          dsimp only at hp ⊢
          rcases hp with h1 | h1 | h1
          · exact hh1 h1
          · exact absurd h1 hnh1
          · exact absurd h1 hnh2
        · rw [upd_other _ _ _ _ hji] at hp ⊢
          exact h.hdr_rid j hj hp
      · intro j hj hp
        by_cases hji : j = i
        · subst hji
          rw [upd_self] at hp
          dsimp only at hp
          exact absurd hp hnt
        · rw [upd_other _ _ _ _ hji] at hp ⊢
          exact h.tdone_timer j hj hp
      · intro j hj
        by_cases hji : j = i
        · subst hji
          rw [upd_self]
          dsimp only
          simp [htid, hay]
        · rw [upd_other _ _ _ _ hji]
          exact h.timer_idle_iff j hj
      · rw [sum_upd n s.reqs i hi _ units, ← h.wg_eq]
        simp only [units, timerUnit, hpc, hre, hta, hruG, htaG, Bool.false_and]
        simp
      · intro j hj hg
        by_cases hji : j = i
        · subst hji
          rw [upd_self]
          dsimp only
          rw [(h.fresh_id (s.counter + 1) (by omega)).1, hte]
        · rw [upd_other _ _ _ _ hji] at hg ⊢
          exact h.term_count j hj hg
      · intro j hj hg
        by_cases hji : j = i
        · subst hji
          rw [upd_self]
          dsimp only
          rw [(h.fresh_id (s.counter + 1) (by omega)).2, htid]
          rfl
        · rw [upd_other _ _ _ _ hji] at hg ⊢
          exact h.prov_count j hj hg
      · intro w hw
        exact h.fresh_id w (by omega)
      · have hs := sum_upd_nat n s.reqs i hi
          (ReqState.mk newpc (s.counter + 1) (s.reqs i).timer (s.reqs i).status
            (s.reqs i).written (s.reqs i).werr (s.reqs i).inp) hdrContrib
        have hcontrib : hdrContrib
            (ReqState.mk newpc (s.counter + 1) (s.reqs i).timer (s.reqs i).status
              (s.reqs i).written (s.reqs i).werr (s.reqs i).inp) = 0 := by
          rcases hcs with ⟨h1, h2⟩ | ⟨h1, h2⟩
          · subst h1; simp [hdrContrib, hdrEmitted]
          · subst h1; simp only [hdrContrib]; rw [if_neg h2]
        have hcontrib2 : hdrContrib (s.reqs i) = 0 := by
          simp [hdrContrib, hpc, hdrEmitted]
        rw [h.hdr_count]
        omega
      · exact h.no_hdr_after
    by_cases hc1 : s.counter + 1 = 1
    · simp only [stepReq, if_pos hi, hpc]
      rw [if_pos hc1]
      exact hmain RPC.hdr1 (Or.inl ⟨rfl, hc1⟩)
    · simp only [stepReq, if_pos hi, hpc]
      rw [if_neg hc1]
      exact hmain RPC.tAdd (Or.inr ⟨rfl, hc1⟩)
  | hdr1 =>
    simp only [stepReq, if_pos hi, hpc]
    have hr1 : (s.reqs i).rid = 1 := h.hdr_rid i hi (by rw [hpc]; exact Or.inl rfl)
    have hgot : gotId (s.reqs i).pc = true := by rw [hpc]; rfl
    refine ⟨?_, ?_, ?_, ?_, ?_, ?_, ?_, ?_, ?_, ?_, ?_, ?_⟩ <;> dsimp only
    · exact counter_upd n s i hi _ h (by simp [gotIdInt, gotId, hpc])
    · intro j hj hg
      by_cases hji : j = i
      · subst hji
        rw [upd_self]
        dsimp only
        exact h.rid_bounds j hj hgot
      · rw [upd_other _ _ _ _ hji] at hg ⊢
        exact h.rid_bounds j hj hg
    · intro j hj k hk hjk hgj hgk
      by_cases hji : j = i
      · subst hji
        by_cases hki : k = j
        · exact absurd hki.symm hjk
        · rw [upd_self] at hgj ⊢
          rw [upd_other _ _ _ _ hki] at hgk ⊢
          dsimp only
          exact h.rid_inj j hj k hk hjk hgot hgk
      · by_cases hki : k = i
        · subst hki
          rw [upd_self] at hgk ⊢
          rw [upd_other _ _ _ _ hji] at hgj ⊢
          dsimp only
          exact h.rid_inj j hj k hk hjk hgj hgot
        · rw [upd_other _ _ _ _ hji] at hgj ⊢
          rw [upd_other _ _ _ _ hki] at hgk ⊢
          exact h.rid_inj j hj k hk hjk hgj hgk
    · intro j hj hp
      by_cases hji : j = i
      · subst hji
        rw [upd_self]
        dsimp only
        exact hr1
      · rw [upd_other _ _ _ _ hji] at hp ⊢
        exact h.hdr_rid j hj hp
    · intro j hj hp
      by_cases hji : j = i
      · subst hji
        rw [upd_self] at hp
        dsimp only at hp
        exact absurd hp (by decide)
      · rw [upd_other _ _ _ _ hji] at hp ⊢
        exact h.tdone_timer j hj hp
    · intro j hj
      by_cases hji : j = i
      · subst hji
        rw [upd_self]
        dsimp only
        have ht2 := h.timer_idle_iff j hj
        rw [hpc] at ht2
        simpa [armedYet] using ht2
      · rw [upd_other _ _ _ _ hji]
        exact h.timer_idle_iff j hj
    · exact wg_upd_same n s i hi _ h (by simp [units, reqUnit, timerUnit, timerAdded, timerReleased, hpc])
    · intro j hj hg
      by_cases hji : j = i
      · subst hji
        rw [upd_self]
        dsimp only
        rw [countP_append_not _ _ _ rfl]
        have hold := h.term_count j hj hgot
        rw [hpc] at hold
        exact hold.trans (by rfl)
      · rw [upd_other _ _ _ _ hji] at hg ⊢
        rw [countP_append_not _ _ _ rfl]
        exact h.term_count j hj hg
    · intro j hj hg
      by_cases hji : j = i
      · subst hji
        rw [upd_self]
        dsimp only
        rw [countP_append_not _ _ _ rfl]
        exact h.prov_count j hj hgot
      · rw [upd_other _ _ _ _ hji] at hg ⊢
        rw [countP_append_not _ _ _ rfl]
        exact h.prov_count j hj hg
    · intro w hw
      refine ⟨?_, ?_⟩
      · rw [countP_append_not _ _ _ rfl]
        exact (h.fresh_id w hw).1
      · rw [countP_append_not _ _ _ rfl]
        exact (h.fresh_id w hw).2
    · rw [countP_append_singleton]
      have hs := sum_upd_nat n s.reqs i hi
        (ReqState.mk RPC.hdr2 (s.reqs i).rid (s.reqs i).timer (s.reqs i).status
          (s.reqs i).written (s.reqs i).werr (s.reqs i).inp) hdrContrib
      have hc1 : hdrContrib (ReqState.mk RPC.hdr2 (s.reqs i).rid (s.reqs i).timer
          (s.reqs i).status (s.reqs i).written (s.reqs i).werr (s.reqs i).inp) = 1 := by
        simp [hdrContrib, hr1, hdrEmitted]
      have hc2 : hdrContrib (s.reqs i) = 1 - 1 := by
        simp [hdrContrib, hr1, hpc, hdrEmitted]
      rw [h.hdr_count]
      simp only [Entry.isHeader, if_true]
      omega
    · have h0 : List.countP (Entry.isTermOf 1) s.log = 0 := by
        have hold := h.term_count i hi hgot
        rw [hr1, hpc] at hold
        exact hold.trans (by rfl)
      exact noHeaderAfter_of_no_term1 s.log _ h0
  | hdr2 =>
    simp only [stepReq, if_pos hi, hpc]
    have hr1 : (s.reqs i).rid = 1 := h.hdr_rid i hi (by rw [hpc]; exact Or.inr (Or.inl rfl))
    have hgot : gotId (s.reqs i).pc = true := by rw [hpc]; rfl
    refine ⟨?_, ?_, ?_, ?_, ?_, ?_, ?_, ?_, ?_, ?_, ?_, ?_⟩ <;> dsimp only
    · exact counter_upd n s i hi _ h (by simp [gotIdInt, gotId, hpc])
    · intro j hj hg
      by_cases hji : j = i
      · subst hji
        rw [upd_self]
        dsimp only
        exact h.rid_bounds j hj hgot
      · rw [upd_other _ _ _ _ hji] at hg ⊢
        exact h.rid_bounds j hj hg
    · intro j hj k hk hjk hgj hgk
      by_cases hji : j = i
      · subst hji
        by_cases hki : k = j
        · exact absurd hki.symm hjk
        · rw [upd_self] at hgj ⊢
          rw [upd_other _ _ _ _ hki] at hgk ⊢
          dsimp only
          exact h.rid_inj j hj k hk hjk hgot hgk
      · by_cases hki : k = i
        · subst hki
          rw [upd_self] at hgk ⊢
          rw [upd_other _ _ _ _ hji] at hgj ⊢
          dsimp only
          exact h.rid_inj j hj k hk hjk hgj hgot
        · rw [upd_other _ _ _ _ hji] at hgj ⊢
          rw [upd_other _ _ _ _ hki] at hgk ⊢
          exact h.rid_inj j hj k hk hjk hgj hgk
    · intro j hj hp
      by_cases hji : j = i
      · subst hji
        rw [upd_self]
        dsimp only
        exact hr1
      · rw [upd_other _ _ _ _ hji] at hp ⊢
        exact h.hdr_rid j hj hp
    · intro j hj hp
      by_cases hji : j = i
      · subst hji
        rw [upd_self] at hp
        dsimp only at hp
        exact absurd hp (by decide)
      · rw [upd_other _ _ _ _ hji] at hp ⊢
        exact h.tdone_timer j hj hp
    · intro j hj
      by_cases hji : j = i
      · subst hji
        rw [upd_self]
        dsimp only
        have ht2 := h.timer_idle_iff j hj
        rw [hpc] at ht2
        simpa [armedYet] using ht2
      · rw [upd_other _ _ _ _ hji]
        exact h.timer_idle_iff j hj
    · exact wg_upd_same n s i hi _ h (by simp [units, reqUnit, timerUnit, timerAdded, timerReleased, hpc])
    · intro j hj hg
      by_cases hji : j = i
      · subst hji
        rw [upd_self]
        dsimp only
        rw [countP_append_not _ _ _ rfl]
        have hold := h.term_count j hj hgot
        rw [hpc] at hold
        exact hold.trans (by rfl)
      · rw [upd_other _ _ _ _ hji] at hg ⊢
        rw [countP_append_not _ _ _ rfl]
        exact h.term_count j hj hg
    · intro j hj hg
      by_cases hji : j = i
      · subst hji
        rw [upd_self]
        dsimp only
        rw [countP_append_not _ _ _ rfl]
        exact h.prov_count j hj hgot
      · rw [upd_other _ _ _ _ hji] at hg ⊢
        rw [countP_append_not _ _ _ rfl]
        exact h.prov_count j hj hg
    · intro w hw
      refine ⟨?_, ?_⟩
      · rw [countP_append_not _ _ _ rfl]
        exact (h.fresh_id w hw).1
      · rw [countP_append_not _ _ _ rfl]
        exact (h.fresh_id w hw).2
    · rw [countP_append_singleton]
      have hs := sum_upd_nat n s.reqs i hi
        (ReqState.mk RPC.hdr3 (s.reqs i).rid (s.reqs i).timer (s.reqs i).status
          (s.reqs i).written (s.reqs i).werr (s.reqs i).inp) hdrContrib
      have hc1 : hdrContrib (ReqState.mk RPC.hdr3 (s.reqs i).rid (s.reqs i).timer
          (s.reqs i).status (s.reqs i).written (s.reqs i).werr (s.reqs i).inp) = 2 := by
        simp [hdrContrib, hr1, hdrEmitted]
      have hc2 : hdrContrib (s.reqs i) = 2 - 1 := by
        simp [hdrContrib, hr1, hpc, hdrEmitted]
      rw [h.hdr_count]
      simp only [Entry.isHeader, if_true]
      omega
    · have h0 : List.countP (Entry.isTermOf 1) s.log = 0 := by
        have hold := h.term_count i hi hgot
        rw [hr1, hpc] at hold
        exact hold.trans (by rfl)
      exact noHeaderAfter_of_no_term1 s.log _ h0
  | hdr3 =>
    simp only [stepReq, if_pos hi, hpc]
    have hr1 : (s.reqs i).rid = 1 := h.hdr_rid i hi (by rw [hpc]; exact Or.inr (Or.inr rfl))
    have hgot : gotId (s.reqs i).pc = true := by rw [hpc]; rfl
    refine ⟨?_, ?_, ?_, ?_, ?_, ?_, ?_, ?_, ?_, ?_, ?_, ?_⟩ <;> dsimp only
    · exact counter_upd n s i hi _ h (by simp [gotIdInt, gotId, hpc])
    · intro j hj hg
      by_cases hji : j = i
      · subst hji
        rw [upd_self]
        dsimp only
        exact h.rid_bounds j hj hgot
      · rw [upd_other _ _ _ _ hji] at hg ⊢
        exact h.rid_bounds j hj hg
    · intro j hj k hk hjk hgj hgk
      by_cases hji : j = i
      · subst hji
        by_cases hki : k = j
        · exact absurd hki.symm hjk
        · rw [upd_self] at hgj ⊢
          rw [upd_other _ _ _ _ hki] at hgk ⊢
          dsimp only
          exact h.rid_inj j hj k hk hjk hgot hgk
      · by_cases hki : k = i
        · subst hki
          rw [upd_self] at hgk ⊢
          rw [upd_other _ _ _ _ hji] at hgj ⊢
          dsimp only
          exact h.rid_inj j hj k hk hjk hgj hgot
        · rw [upd_other _ _ _ _ hji] at hgj ⊢
          rw [upd_other _ _ _ _ hki] at hgk ⊢
          exact h.rid_inj j hj k hk hjk hgj hgk
    · intro j hj hp
      by_cases hji : j = i
      · subst hji
        rw [upd_self] at hp
        dsimp only at hp
        rcases hp with h1 | h1 | h1 <;> exact absurd h1 (by decide)
      · rw [upd_other _ _ _ _ hji] at hp ⊢
        exact h.hdr_rid j hj hp
    · intro j hj hp
      by_cases hji : j = i
      · subst hji
        rw [upd_self] at hp
        dsimp only at hp
        exact absurd hp (by decide)
      · rw [upd_other _ _ _ _ hji] at hp ⊢
        exact h.tdone_timer j hj hp
    · intro j hj
      by_cases hji : j = i
      · subst hji
        rw [upd_self]
        dsimp only
        have ht2 := h.timer_idle_iff j hj
        rw [hpc] at ht2
        simpa [armedYet] using ht2
      · rw [upd_other _ _ _ _ hji]
        exact h.timer_idle_iff j hj
    · exact wg_upd_same n s i hi _ h (by simp [units, reqUnit, timerUnit, timerAdded, timerReleased, hpc])
    · intro j hj hg
      by_cases hji : j = i
      · subst hji
        rw [upd_self]
        dsimp only
        rw [countP_append_not _ _ _ rfl]
        have hold := h.term_count j hj hgot
        rw [hpc] at hold
        exact hold.trans (by rfl)
      · rw [upd_other _ _ _ _ hji] at hg ⊢
        rw [countP_append_not _ _ _ rfl]
        exact h.term_count j hj hg
    · intro j hj hg
      by_cases hji : j = i
      · subst hji
        rw [upd_self]
        dsimp only
        rw [countP_append_not _ _ _ rfl]
        exact h.prov_count j hj hgot
      · rw [upd_other _ _ _ _ hji] at hg ⊢
        rw [countP_append_not _ _ _ rfl]
        exact h.prov_count j hj hg
    · intro w hw
      refine ⟨?_, ?_⟩
      · rw [countP_append_not _ _ _ rfl]
        exact (h.fresh_id w hw).1
      · rw [countP_append_not _ _ _ rfl]
        exact (h.fresh_id w hw).2
    · rw [countP_append_singleton]
      have hs := sum_upd_nat n s.reqs i hi
        (ReqState.mk RPC.tAdd (s.reqs i).rid (s.reqs i).timer (s.reqs i).status
          (s.reqs i).written (s.reqs i).werr (s.reqs i).inp) hdrContrib
      have hc1 : hdrContrib (ReqState.mk RPC.tAdd (s.reqs i).rid (s.reqs i).timer
          (s.reqs i).status (s.reqs i).written (s.reqs i).werr (s.reqs i).inp) = 3 := by
        simp [hdrContrib, hr1, hdrEmitted]
      have hc2 : hdrContrib (s.reqs i) = 3 - 1 := by
        simp [hdrContrib, hr1, hpc, hdrEmitted]
      rw [h.hdr_count]
      simp only [Entry.isHeader, if_true]
      omega
    · have h0 : List.countP (Entry.isTermOf 1) s.log = 0 := by
        have hold := h.term_count i hi hgot
        rw [hr1, hpc] at hold
        exact hold.trans (by rfl)
      exact noHeaderAfter_of_no_term1 s.log _ h0
  | tAdd =>
    simp only [stepReq, if_pos hi, hpc]
    have hgot : gotId (s.reqs i).pc = true := by rw [hpc]; rfl
    have htid : (s.reqs i).timer = TState.idle :=
      (h.timer_idle_iff i hi).mpr (by rw [hpc]; rfl)
    refine ⟨?_, ?_, ?_, ?_, ?_, ?_, ?_, ?_, ?_, ?_, ?_, ?_⟩ <;> dsimp only
    · exact counter_upd n s i hi _ h (by simp [gotIdInt, gotId, hpc])
    · intro j hj hg
      by_cases hji : j = i
      · subst hji
        rw [upd_self]
        dsimp only
        exact h.rid_bounds j hj hgot
      · rw [upd_other _ _ _ _ hji] at hg ⊢
        exact h.rid_bounds j hj hg
    · intro j hj k hk hjk hgj hgk
      by_cases hji : j = i
      · subst hji
        by_cases hki : k = j
        · exact absurd hki.symm hjk
        · rw [upd_self] at hgj ⊢
          rw [upd_other _ _ _ _ hki] at hgk ⊢
          dsimp only
          exact h.rid_inj j hj k hk hjk hgot hgk
      · by_cases hki : k = i
        · subst hki
          rw [upd_self] at hgk ⊢
          rw [upd_other _ _ _ _ hji] at hgj ⊢
          dsimp only
          exact h.rid_inj j hj k hk hjk hgj hgot
        · rw [upd_other _ _ _ _ hji] at hgj ⊢
          rw [upd_other _ _ _ _ hki] at hgk ⊢
          exact h.rid_inj j hj k hk hjk hgj hgk
    · intro j hj hp
      by_cases hji : j = i
      · subst hji
        rw [upd_self] at hp
        dsimp only at hp
        rcases hp with h1 | h1 | h1 <;> exact absurd h1 (by decide)
      · rw [upd_other _ _ _ _ hji] at hp ⊢
        exact h.hdr_rid j hj hp
    · intro j hj hp
      by_cases hji : j = i
      · subst hji
        rw [upd_self] at hp
        dsimp only at hp
        exact absurd hp (by decide)
      · rw [upd_other _ _ _ _ hji] at hp ⊢
        exact h.tdone_timer j hj hp
    · intro j hj
      by_cases hji : j = i
      · subst hji
        rw [upd_self]
        dsimp only
        have ht2 := h.timer_idle_iff j hj
        rw [hpc] at ht2
        simpa [armedYet] using ht2
      · rw [upd_other _ _ _ _ hji]
        exact h.timer_idle_iff j hj
    · exact wg_upd_add n s i hi _ h (by simp [units, reqUnit, timerUnit, timerAdded, timerReleased, hpc, htid])
    · intro j hj hg
      by_cases hji : j = i
      · subst hji
        rw [upd_self]
        dsimp only
        have hold := h.term_count j hj hgot
        rw [hpc] at hold
        exact hold.trans (by rfl)
      · rw [upd_other _ _ _ _ hji] at hg ⊢
        exact h.term_count j hj hg
    · intro j hj hg
      by_cases hji : j = i
      · subst hji
        rw [upd_self]
        dsimp only
        exact h.prov_count j hj hgot
      · rw [upd_other _ _ _ _ hji] at hg ⊢
        exact h.prov_count j hj hg
    · exact h.fresh_id
    · exact hdr_count_upd n s i hi _ h (by simp [hdrContrib, hdrEmitted, hpc])
    · exact h.no_hdr_after
  | arm =>
    simp only [stepReq, if_pos hi, hpc]
    have hgot : gotId (s.reqs i).pc = true := by rw [hpc]; rfl
    have htid : (s.reqs i).timer = TState.idle :=
      (h.timer_idle_iff i hi).mpr (by rw [hpc]; rfl)
    refine ⟨?_, ?_, ?_, ?_, ?_, ?_, ?_, ?_, ?_, ?_, ?_, ?_⟩ <;> dsimp only
    · exact counter_upd n s i hi _ h (by simp [gotIdInt, gotId, hpc])
    · intro j hj hg
      by_cases hji : j = i
      · subst hji
        rw [upd_self]
        dsimp only
        exact h.rid_bounds j hj hgot
      · rw [upd_other _ _ _ _ hji] at hg ⊢
        exact h.rid_bounds j hj hg
    · intro j hj k hk hjk hgj hgk
      by_cases hji : j = i
      · subst hji
        by_cases hki : k = j
        · exact absurd hki.symm hjk
        · rw [upd_self] at hgj ⊢
          rw [upd_other _ _ _ _ hki] at hgk ⊢
          dsimp only
          exact h.rid_inj j hj k hk hjk hgot hgk
      · by_cases hki : k = i
        · subst hki
          rw [upd_self] at hgk ⊢
          rw [upd_other _ _ _ _ hji] at hgj ⊢
          dsimp only
          exact h.rid_inj j hj k hk hjk hgj hgot
        · rw [upd_other _ _ _ _ hji] at hgj ⊢
          rw [upd_other _ _ _ _ hki] at hgk ⊢
          exact h.rid_inj j hj k hk hjk hgj hgk
    · intro j hj hp
      by_cases hji : j = i
      · subst hji
        rw [upd_self] at hp
        dsimp only at hp
        rcases hp with h1 | h1 | h1 <;> exact absurd h1 (by decide)
      · rw [upd_other _ _ _ _ hji] at hp ⊢
        exact h.hdr_rid j hj hp
    · intro j hj hp
      by_cases hji : j = i
      · subst hji
        rw [upd_self] at hp
        dsimp only at hp
        exact absurd hp (by decide)
      · rw [upd_other _ _ _ _ hji] at hp ⊢
        exact h.tdone_timer j hj hp
    · intro j hj
      by_cases hji : j = i
      · subst hji
        rw [upd_self]
        dsimp only
        simp [armedYet]
      · rw [upd_other _ _ _ _ hji]
        exact h.timer_idle_iff j hj
    · exact wg_upd_same n s i hi _ h (by simp [units, reqUnit, timerUnit, timerAdded, timerReleased, hpc, htid])
    · intro j hj hg
      by_cases hji : j = i
      · subst hji
        rw [upd_self]
        dsimp only
        have hold := h.term_count j hj hgot
        rw [hpc] at hold
        exact hold.trans (by rfl)
      · rw [upd_other _ _ _ _ hji] at hg ⊢
        exact h.term_count j hj hg
    · intro j hj hg
      by_cases hji : j = i
      · subst hji
        rw [upd_self]
        dsimp only
        have hold := h.prov_count j hj hgot
        rw [htid] at hold
        exact hold.trans (by rfl)
      · rw [upd_other _ _ _ _ hji] at hg ⊢
        exact h.prov_count j hj hg
    · exact h.fresh_id
    · exact hdr_count_upd n s i hi _ h (by simp [hdrContrib, hdrEmitted, hpc])
    · exact h.no_hdr_after
  | handle =>
    have hgh : goHasHijack w3cLoggerMethodSet = false := by rfl
    simp only [stepReq, if_pos hi, hpc, hgh, Bool.and_false, Bool.false_eq_true, if_false]
    have hgot : gotId (s.reqs i).pc = true := by rw [hpc]; rfl
    refine ⟨?_, ?_, ?_, ?_, ?_, ?_, ?_, ?_, ?_, ?_, ?_, ?_⟩ <;> dsimp only
    · exact counter_upd n s i hi _ h (by simp [gotIdInt, gotId, hpc])
    · intro j hj hg
      by_cases hji : j = i
      · subst hji
        rw [upd_self]
        dsimp only
        exact h.rid_bounds j hj hgot
      · rw [upd_other _ _ _ _ hji] at hg ⊢
        exact h.rid_bounds j hj hg
    · intro j hj k hk hjk hgj hgk
      by_cases hji : j = i
      · subst hji
        by_cases hki : k = j
        · exact absurd hki.symm hjk
        · rw [upd_self] at hgj ⊢
          rw [upd_other _ _ _ _ hki] at hgk ⊢
          dsimp only
          exact h.rid_inj j hj k hk hjk hgot hgk
      · by_cases hki : k = i
        · subst hki
          rw [upd_self] at hgk ⊢
          rw [upd_other _ _ _ _ hji] at hgj ⊢
          dsimp only
          exact h.rid_inj j hj k hk hjk hgj hgot
        · rw [upd_other _ _ _ _ hji] at hgj ⊢
          rw [upd_other _ _ _ _ hki] at hgk ⊢
          exact h.rid_inj j hj k hk hjk hgj hgk
    · intro j hj hp
      by_cases hji : j = i
      · subst hji
        rw [upd_self] at hp
        dsimp only at hp
        rcases hp with h1 | h1 | h1 <;> exact absurd h1 (by decide)
      · rw [upd_other _ _ _ _ hji] at hp ⊢
        exact h.hdr_rid j hj hp
    · intro j hj hp
      by_cases hji : j = i
      · subst hji
        rw [upd_self] at hp
        dsimp only at hp
        exact absurd hp (by decide)
      · rw [upd_other _ _ _ _ hji] at hp ⊢
        exact h.tdone_timer j hj hp
    · intro j hj
      by_cases hji : j = i
      · subst hji
        rw [upd_self]
        dsimp only
        have ht2 := h.timer_idle_iff j hj
        rw [hpc] at ht2
        simpa [armedYet] using ht2
      · rw [upd_other _ _ _ _ hji]
        exact h.timer_idle_iff j hj
    · exact wg_upd_same n s i hi _ h (by simp [units, reqUnit, timerUnit, timerAdded, timerReleased, hpc])
    · intro j hj hg
      by_cases hji : j = i
      · subst hji
        rw [upd_self]
        dsimp only
        have hold := h.term_count j hj hgot
        rw [hpc] at hold
        exact hold.trans (by rfl)
      · rw [upd_other _ _ _ _ hji] at hg ⊢
        exact h.term_count j hj hg
    · intro j hj hg
      by_cases hji : j = i
      · subst hji
        rw [upd_self]
        dsimp only
        exact h.prov_count j hj hgot
      · rw [upd_other _ _ _ _ hji] at hg ⊢
        exact h.prov_count j hj hg
    · exact h.fresh_id
    · exact hdr_count_upd n s i hi _ h (by simp [hdrContrib, hdrEmitted, hpc])
    · exact h.no_hdr_after
  | stop =>
    have hgot : gotId (s.reqs i).pc = true := by rw [hpc]; rfl
    by_cases htm : (s.reqs i).timer = TState.armed
    · simp only [stepReq, if_pos hi, hpc]
      rw [if_pos htm]
      refine ⟨?_, ?_, ?_, ?_, ?_, ?_, ?_, ?_, ?_, ?_, ?_, ?_⟩ <;> dsimp only
      · exact counter_upd n s i hi _ h (by simp [gotIdInt, gotId, hpc])
      · intro j hj hg
        by_cases hji : j = i
        · subst hji
          rw [upd_self]
          dsimp only
          exact h.rid_bounds j hj hgot
        · rw [upd_other _ _ _ _ hji] at hg ⊢
          exact h.rid_bounds j hj hg
      · intro j hj k hk hjk hgj hgk
        by_cases hji : j = i
        · subst hji
          by_cases hki : k = j
          · exact absurd hki.symm hjk
          · rw [upd_self] at hgj ⊢
            rw [upd_other _ _ _ _ hki] at hgk ⊢
            dsimp only
            exact h.rid_inj j hj k hk hjk hgot hgk
        · by_cases hki : k = i
          · subst hki
            rw [upd_self] at hgk ⊢
            rw [upd_other _ _ _ _ hji] at hgj ⊢
            dsimp only
            exact h.rid_inj j hj k hk hjk hgj hgot
          · rw [upd_other _ _ _ _ hji] at hgj ⊢
            rw [upd_other _ _ _ _ hki] at hgk ⊢
            exact h.rid_inj j hj k hk hjk hgj hgk
      · intro j hj hp
        by_cases hji : j = i
        · subst hji
          rw [upd_self] at hp
          dsimp only at hp
          rcases hp with h1 | h1 | h1 <;> exact absurd h1 (by decide)
        · rw [upd_other _ _ _ _ hji] at hp ⊢
          exact h.hdr_rid j hj hp
      · intro j hj hp
        by_cases hji : j = i
        · subst hji
          rw [upd_self]
        · rw [upd_other _ _ _ _ hji] at hp ⊢
          exact h.tdone_timer j hj hp
      · intro j hj
        by_cases hji : j = i
        · subst hji
          rw [upd_self]
          dsimp only
          simp [armedYet]
        · rw [upd_other _ _ _ _ hji]
          exact h.timer_idle_iff j hj
      · exact wg_upd_same n s i hi _ h (by simp [units, reqUnit, timerUnit, timerAdded, timerReleased, hpc, htm])
      · intro j hj hg
        by_cases hji : j = i
        · subst hji
          rw [upd_self]
          dsimp only
          have hold := h.term_count j hj hgot
          rw [hpc] at hold
          exact hold.trans (by rfl)
        · rw [upd_other _ _ _ _ hji] at hg ⊢
          exact h.term_count j hj hg
      · intro j hj hg
        by_cases hji : j = i
        · subst hji
          rw [upd_self]
          dsimp only
          have hold := h.prov_count j hj hgot
          rw [htm] at hold
          exact hold.trans (by rfl)
        · rw [upd_other _ _ _ _ hji] at hg ⊢
          exact h.prov_count j hj hg
      · exact h.fresh_id
      · exact hdr_count_upd n s i hi _ h (by simp [hdrContrib, hdrEmitted, hpc])
      · exact h.no_hdr_after
    · simp only [stepReq, if_pos hi, hpc]
      rw [if_neg htm]
      refine ⟨?_, ?_, ?_, ?_, ?_, ?_, ?_, ?_, ?_, ?_, ?_, ?_⟩ <;> dsimp only
      · exact counter_upd n s i hi _ h (by simp [gotIdInt, gotId, hpc])
      · intro j hj hg
        by_cases hji : j = i
        · subst hji
          rw [upd_self]
          dsimp only
          exact h.rid_bounds j hj hgot
        · rw [upd_other _ _ _ _ hji] at hg ⊢
          exact h.rid_bounds j hj hg
      · intro j hj k hk hjk hgj hgk
        by_cases hji : j = i
        · subst hji
          by_cases hki : k = j
          · exact absurd hki.symm hjk
          · rw [upd_self] at hgj ⊢
            rw [upd_other _ _ _ _ hki] at hgk ⊢
            dsimp only
            exact h.rid_inj j hj k hk hjk hgot hgk
        · by_cases hki : k = i
          · subst hki
            rw [upd_self] at hgk ⊢
            rw [upd_other _ _ _ _ hji] at hgj ⊢
            dsimp only
            exact h.rid_inj j hj k hk hjk hgj hgot
          · rw [upd_other _ _ _ _ hji] at hgj ⊢
            rw [upd_other _ _ _ _ hki] at hgk ⊢
            exact h.rid_inj j hj k hk hjk hgj hgk
      · intro j hj hp
        by_cases hji : j = i
        · subst hji
          rw [upd_self] at hp
          dsimp only at hp
          rcases hp with h1 | h1 | h1 <;> exact absurd h1 (by decide)
        · rw [upd_other _ _ _ _ hji] at hp ⊢
          exact h.hdr_rid j hj hp
      · intro j hj hp
        by_cases hji : j = i
        · subst hji
          rw [upd_self] at hp
          dsimp only at hp
          exact absurd hp (by decide)
        · rw [upd_other _ _ _ _ hji] at hp ⊢
          exact h.tdone_timer j hj hp
      · intro j hj
        by_cases hji : j = i
        · subst hji
          rw [upd_self]
          dsimp only
          have ht2 := h.timer_idle_iff j hj
          rw [hpc] at ht2
          simpa [armedYet] using ht2
        · rw [upd_other _ _ _ _ hji]
          exact h.timer_idle_iff j hj
      · exact wg_upd_same n s i hi _ h (by simp [units, reqUnit, timerUnit, timerAdded, timerReleased, hpc])
      · intro j hj hg
        by_cases hji : j = i
        · subst hji
          rw [upd_self]
          dsimp only
          have hold := h.term_count j hj hgot
          rw [hpc] at hold
          exact hold.trans (by rfl)
        · rw [upd_other _ _ _ _ hji] at hg ⊢
          exact h.term_count j hj hg
      · intro j hj hg
        by_cases hji : j = i
        · subst hji
          rw [upd_self]
          dsimp only
          exact h.prov_count j hj hgot
        · rw [upd_other _ _ _ _ hji] at hg ⊢
          exact h.prov_count j hj hg
      · exact h.fresh_id
      · exact hdr_count_upd n s i hi _ h (by simp [hdrContrib, hdrEmitted, hpc])
      · exact h.no_hdr_after
  | tDone =>
    simp only [stepReq, if_pos hi, hpc]
    have hgot : gotId (s.reqs i).pc = true := by rw [hpc]; rfl
    have hts : (s.reqs i).timer = TState.stopped := h.tdone_timer i hi hpc
    refine ⟨?_, ?_, ?_, ?_, ?_, ?_, ?_, ?_, ?_, ?_, ?_, ?_⟩ <;> dsimp only
    · exact counter_upd n s i hi _ h (by simp [gotIdInt, gotId, hpc])
    · intro j hj hg
      by_cases hji : j = i
      · subst hji
        rw [upd_self]
        dsimp only
        exact h.rid_bounds j hj hgot
      · rw [upd_other _ _ _ _ hji] at hg ⊢
        exact h.rid_bounds j hj hg
    · intro j hj k hk hjk hgj hgk
      by_cases hji : j = i
      · subst hji
        by_cases hki : k = j
        · exact absurd hki.symm hjk
        · rw [upd_self] at hgj ⊢
          rw [upd_other _ _ _ _ hki] at hgk ⊢
          dsimp only
          exact h.rid_inj j hj k hk hjk hgot hgk
      · by_cases hki : k = i
        · subst hki
          rw [upd_self] at hgk ⊢
          rw [upd_other _ _ _ _ hji] at hgj ⊢
          dsimp only
          exact h.rid_inj j hj k hk hjk hgj hgot
        · rw [upd_other _ _ _ _ hji] at hgj ⊢
          rw [upd_other _ _ _ _ hki] at hgk ⊢
          exact h.rid_inj j hj k hk hjk hgj hgk
    · intro j hj hp
      by_cases hji : j = i
      · subst hji
        rw [upd_self] at hp
        dsimp only at hp
        rcases hp with h1 | h1 | h1 <;> exact absurd h1 (by decide)
      · rw [upd_other _ _ _ _ hji] at hp ⊢
        exact h.hdr_rid j hj hp
    · intro j hj hp
      by_cases hji : j = i
      · subst hji
        rw [upd_self] at hp
        dsimp only at hp
        exact absurd hp (by decide)
      · rw [upd_other _ _ _ _ hji] at hp ⊢
        exact h.tdone_timer j hj hp
    · intro j hj
      by_cases hji : j = i
      · subst hji
        rw [upd_self]
        dsimp only
        simp [armedYet, hts]
      · rw [upd_other _ _ _ _ hji]
        exact h.timer_idle_iff j hj
    · exact wg_upd_sub n s i hi _ h (by simp [units, reqUnit, timerUnit, timerAdded, timerReleased, hpc, hts])
    · intro j hj hg
      by_cases hji : j = i
      · subst hji
        rw [upd_self]
        dsimp only
        have hold := h.term_count j hj hgot
        rw [hpc] at hold
        exact hold.trans (by rfl)
      · rw [upd_other _ _ _ _ hji] at hg ⊢
        exact h.term_count j hj hg
    · intro j hj hg
      by_cases hji : j = i
      · subst hji
        rw [upd_self]
        dsimp only
        exact h.prov_count j hj hgot
      · rw [upd_other _ _ _ _ hji] at hg ⊢
        exact h.prov_count j hj hg
    · exact h.fresh_id
    · exact hdr_count_upd n s i hi _ h (by simp [hdrContrib, hdrEmitted, hpc])
    · exact h.no_hdr_after
  | emit fired =>
    simp only [stepReq, if_pos hi, hpc]
    have hgot : gotId (s.reqs i).pc = true := by rw [hpc]; rfl
    refine ⟨?_, ?_, ?_, ?_, ?_, ?_, ?_, ?_, ?_, ?_, ?_, ?_⟩ <;> dsimp only
    · exact counter_upd n s i hi _ h (by simp [gotIdInt, gotId, hpc])
    · intro j hj hg
      by_cases hji : j = i
      · subst hji
        rw [upd_self]
        dsimp only
        exact h.rid_bounds j hj hgot
      · rw [upd_other _ _ _ _ hji] at hg ⊢
        exact h.rid_bounds j hj hg
    · intro j hj k hk hjk hgj hgk
      by_cases hji : j = i
      · subst hji
        by_cases hki : k = j
        · exact absurd hki.symm hjk
        · rw [upd_self] at hgj ⊢
          rw [upd_other _ _ _ _ hki] at hgk ⊢
          dsimp only
          exact h.rid_inj j hj k hk hjk hgot hgk
      · by_cases hki : k = i
        · subst hki
          rw [upd_self] at hgk ⊢
          rw [upd_other _ _ _ _ hji] at hgj ⊢
          dsimp only
          exact h.rid_inj j hj k hk hjk hgj hgot
        · rw [upd_other _ _ _ _ hji] at hgj ⊢
          rw [upd_other _ _ _ _ hki] at hgk ⊢
          exact h.rid_inj j hj k hk hjk hgj hgk
    · intro j hj hp
      by_cases hji : j = i
      · subst hji
        rw [upd_self] at hp
        dsimp only at hp
        rcases hp with h1 | h1 | h1 <;> exact absurd h1 (by decide)
      · rw [upd_other _ _ _ _ hji] at hp ⊢
        exact h.hdr_rid j hj hp
    · intro j hj hp
      by_cases hji : j = i
      · subst hji
        rw [upd_self] at hp
        dsimp only at hp
        exact absurd hp (by decide)
      · rw [upd_other _ _ _ _ hji] at hp ⊢
        exact h.tdone_timer j hj hp
    · intro j hj
      by_cases hji : j = i
      · subst hji
        rw [upd_self]
        dsimp only
        have ht2 := h.timer_idle_iff j hj
        rw [hpc] at ht2
        simpa [armedYet] using ht2
      · rw [upd_other _ _ _ _ hji]
        exact h.timer_idle_iff j hj
    · exact wg_upd_same n s i hi _ h (by simp [units, reqUnit, timerUnit, timerAdded, timerReleased, hpc])
    · intro j hj hg
      by_cases hji : j = i
      · subst hji
        rw [upd_self]
        dsimp only
        rw [countP_append_singleton]
        have hold := h.term_count j hj hgot
        rw [hpc] at hold
        simp [hold, Entry.isTermOf, termEmitted]
      · rw [upd_other _ _ _ _ hji] at hg ⊢
        rw [countP_append_singleton]
        have hne : (s.reqs i).rid ≠ (s.reqs j).rid :=
          Ne.symm (h.rid_inj j hj i hi hji hg hgot)
        simp only [Entry.isTermOf, hne, decide_eq_true_eq, if_false]
        simp [hne]
        exact h.term_count j hj hg
    · intro j hj hg
      by_cases hji : j = i
      · subst hji
        rw [upd_self]
        dsimp only
        rw [countP_append_not _ _ _ rfl]
        exact h.prov_count j hj hgot
      · rw [upd_other _ _ _ _ hji] at hg ⊢
        rw [countP_append_not _ _ _ rfl]
        exact h.prov_count j hj hg
    · intro w hw
      have hb := (h.rid_bounds i hi hgot).2
      have hne : (s.reqs i).rid ≠ w := by omega
      refine ⟨?_, ?_⟩
      · rw [countP_append_singleton]
        have h0 := (h.fresh_id w hw).1
        simp [Entry.isTermOf, hne, h0]
      · rw [countP_append_not _ _ _ rfl]
        exact (h.fresh_id w hw).2
    · rw [countP_append_not _ _ _ rfl]
      exact hdr_count_upd n s i hi _ h (by simp [hdrContrib, hdrEmitted, hpc])
    · exact noHeaderAfter_append_nonheader s.log _ h.no_hdr_after rfl
  | wgDone =>
    simp only [stepReq, if_pos hi, hpc]
    have hgot : gotId (s.reqs i).pc = true := by rw [hpc]; rfl
    refine ⟨?_, ?_, ?_, ?_, ?_, ?_, ?_, ?_, ?_, ?_, ?_, ?_⟩ <;> dsimp only
    · exact counter_upd n s i hi _ h (by simp [gotIdInt, gotId, hpc])
    · intro j hj hg
      by_cases hji : j = i
      · subst hji
        rw [upd_self]
        dsimp only
        exact h.rid_bounds j hj hgot
      · rw [upd_other _ _ _ _ hji] at hg ⊢
        exact h.rid_bounds j hj hg
    · intro j hj k hk hjk hgj hgk
      by_cases hji : j = i
      · subst hji
        by_cases hki : k = j
        · exact absurd hki.symm hjk
        · rw [upd_self] at hgj ⊢
          rw [upd_other _ _ _ _ hki] at hgk ⊢
          dsimp only
          exact h.rid_inj j hj k hk hjk hgot hgk
      · by_cases hki : k = i
        · subst hki
          rw [upd_self] at hgk ⊢
          rw [upd_other _ _ _ _ hji] at hgj ⊢
          dsimp only
          exact h.rid_inj j hj k hk hjk hgj hgot
        · rw [upd_other _ _ _ _ hji] at hgj ⊢
          rw [upd_other _ _ _ _ hki] at hgk ⊢
          exact h.rid_inj j hj k hk hjk hgj hgk
    · intro j hj hp
      by_cases hji : j = i
      · subst hji
        rw [upd_self] at hp
        dsimp only at hp
        rcases hp with h1 | h1 | h1 <;> exact absurd h1 (by decide)
      · rw [upd_other _ _ _ _ hji] at hp ⊢
        exact h.hdr_rid j hj hp
    · intro j hj hp
      by_cases hji : j = i
      · subst hji
        rw [upd_self] at hp
        dsimp only at hp
        exact absurd hp (by decide)
      · rw [upd_other _ _ _ _ hji] at hp ⊢
        exact h.tdone_timer j hj hp
    · intro j hj
      by_cases hji : j = i
      · subst hji
        rw [upd_self]
        dsimp only
        have ht2 := h.timer_idle_iff j hj
        rw [hpc] at ht2
        simpa [armedYet] using ht2
      · rw [upd_other _ _ _ _ hji]
        exact h.timer_idle_iff j hj
    · exact wg_upd_sub n s i hi _ h (by simp [units, reqUnit, timerUnit, timerAdded, timerReleased, hpc])
    · intro j hj hg
      by_cases hji : j = i
      · subst hji
        rw [upd_self]
        dsimp only
        have hold := h.term_count j hj hgot
        rw [hpc] at hold
        exact hold.trans (by rfl)
      · rw [upd_other _ _ _ _ hji] at hg ⊢
        exact h.term_count j hj hg
    · intro j hj hg
      by_cases hji : j = i
      · subst hji
        rw [upd_self]
        dsimp only
        exact h.prov_count j hj hgot
      · rw [upd_other _ _ _ _ hji] at hg ⊢
        exact h.prov_count j hj hg
    · exact h.fresh_id
    · exact hdr_count_upd n s i hi _ h (by simp [hdrContrib, hdrEmitted, hpc])
    · exact h.no_hdr_after
  | done =>
    simp only [stepReq, if_pos hi, hpc]
    exact h
  | hijackStuck =>
    simp only [stepReq, if_pos hi, hpc]
    exact h

theorem inv_stepTimer (n : Nat) (s : Sys) (i : Nat) (h : Inv n s) :
    Inv n (stepTimer n s i) := by
  by_cases hi : i < n
  swap
  · simpa [stepTimer, hi] using h
  cases ht : (s.reqs i).timer with
  | idle =>
    simp only [stepTimer, if_pos hi, ht]
    exact h
  | firedDone =>
    simp only [stepTimer, if_pos hi, ht]
    exact h
  | stopped =>
    simp only [stepTimer, if_pos hi, ht]
    exact h
  | armed =>
    simp only [stepTimer, if_pos hi, ht]
    have hay : armedYet (s.reqs i).pc = true := by
      have h2 := h.timer_idle_iff i hi
      rw [ht] at h2
      simpa using h2
    have hgot : gotId (s.reqs i).pc = true := gotId_of_armedYet _ hay
    have hta : timerAdded (s.reqs i).pc = true := timerAdded_of_armedYet _ hay
    refine ⟨?_, ?_, ?_, ?_, ?_, ?_, ?_, ?_, ?_, ?_, ?_, ?_⟩ <;> dsimp only
    · exact counter_upd n s i hi _ h (by rfl)
    · intro j hj hg
      by_cases hji : j = i
      · subst hji
        rw [upd_self]
        dsimp only
        exact h.rid_bounds j hj hgot
      · rw [upd_other _ _ _ _ hji] at hg ⊢
        exact h.rid_bounds j hj hg
    · intro j hj k hk hjk hgj hgk
      by_cases hji : j = i
      · subst hji
        by_cases hki : k = j
        · exact absurd hki.symm hjk
        · rw [upd_self] at hgj ⊢
          rw [upd_other _ _ _ _ hki] at hgk ⊢
          dsimp only
          exact h.rid_inj j hj k hk hjk hgot hgk
      · by_cases hki : k = i
        · subst hki
          rw [upd_self] at hgk ⊢
          rw [upd_other _ _ _ _ hji] at hgj ⊢
          dsimp only
          exact h.rid_inj j hj k hk hjk hgj hgot
        · rw [upd_other _ _ _ _ hji] at hgj ⊢
          rw [upd_other _ _ _ _ hki] at hgk ⊢
          exact h.rid_inj j hj k hk hjk hgj hgk
    · intro j hj hp
      by_cases hji : j = i
      · subst hji
        rw [upd_self] at hp ⊢
        dsimp only at hp ⊢
        exact h.hdr_rid j hj hp
      · rw [upd_other _ _ _ _ hji] at hp ⊢
        exact h.hdr_rid j hj hp
    · intro j hj hp
      by_cases hji : j = i
      · subst hji
        rw [upd_self] at hp
        dsimp only at hp
        have hc := h.tdone_timer j hj hp
        rw [ht] at hc
        exact absurd hc (by decide)
      · rw [upd_other _ _ _ _ hji] at hp ⊢
        exact h.tdone_timer j hj hp
    · intro j hj
      by_cases hji : j = i
      · subst hji
        rw [upd_self]
        dsimp only
        simp [hay]
      · rw [upd_other _ _ _ _ hji]
        exact h.timer_idle_iff j hj
    · exact wg_upd_same n s i hi _ h (by simp [units, timerUnit, timerReleased, ht])
    · intro j hj hg
      by_cases hji : j = i
      · subst hji
        rw [upd_self]
        dsimp only
        exact h.term_count j hj hgot
      · rw [upd_other _ _ _ _ hji] at hg ⊢
        exact h.term_count j hj hg
    · intro j hj hg
      by_cases hji : j = i
      · subst hji
        rw [upd_self]
        dsimp only
        have hold := h.prov_count j hj hgot
        rw [ht] at hold
        exact hold.trans (by rfl)
      · rw [upd_other _ _ _ _ hji] at hg ⊢
        exact h.prov_count j hj hg
    · exact h.fresh_id
    · exact hdr_count_upd n s i hi _ h (by rfl)
    · exact h.no_hdr_after
  | fired1 =>
    simp only [stepTimer, if_pos hi, ht]
    have hay : armedYet (s.reqs i).pc = true := by
      have h2 := h.timer_idle_iff i hi
      rw [ht] at h2
      simpa using h2
    have hgot : gotId (s.reqs i).pc = true := gotId_of_armedYet _ hay
    have hta : timerAdded (s.reqs i).pc = true := timerAdded_of_armedYet _ hay
    refine ⟨?_, ?_, ?_, ?_, ?_, ?_, ?_, ?_, ?_, ?_, ?_, ?_⟩ <;> dsimp only
    · exact counter_upd n s i hi _ h (by rfl)
    · intro j hj hg
      by_cases hji : j = i
      · subst hji
        rw [upd_self]
        dsimp only
        exact h.rid_bounds j hj hgot
      · rw [upd_other _ _ _ _ hji] at hg ⊢
        exact h.rid_bounds j hj hg
    · intro j hj k hk hjk hgj hgk
      by_cases hji : j = i
      · subst hji
        by_cases hki : k = j
        · exact absurd hki.symm hjk
        · rw [upd_self] at hgj ⊢
          rw [upd_other _ _ _ _ hki] at hgk ⊢
          dsimp only
          exact h.rid_inj j hj k hk hjk hgot hgk
      · by_cases hki : k = i
        · subst hki
          rw [upd_self] at hgk ⊢
          rw [upd_other _ _ _ _ hji] at hgj ⊢
          dsimp only
          exact h.rid_inj j hj k hk hjk hgj hgot
        · rw [upd_other _ _ _ _ hji] at hgj ⊢
          rw [upd_other _ _ _ _ hki] at hgk ⊢
          exact h.rid_inj j hj k hk hjk hgj hgk
    · intro j hj hp
      by_cases hji : j = i
      · subst hji
        rw [upd_self] at hp ⊢
        dsimp only at hp ⊢
        exact h.hdr_rid j hj hp
      · rw [upd_other _ _ _ _ hji] at hp ⊢
        exact h.hdr_rid j hj hp
    · intro j hj hp
      by_cases hji : j = i
      · subst hji
        rw [upd_self] at hp
        dsimp only at hp
        have hc := h.tdone_timer j hj hp
        rw [ht] at hc
        exact absurd hc (by decide)
      · rw [upd_other _ _ _ _ hji] at hp ⊢
        exact h.tdone_timer j hj hp
    · intro j hj
      by_cases hji : j = i
      · subst hji
        rw [upd_self]
        dsimp only
        simp [hay]
      · rw [upd_other _ _ _ _ hji]
        exact h.timer_idle_iff j hj
    · exact wg_upd_same n s i hi _ h (by simp [units, timerUnit, timerReleased, ht])
    · intro j hj hg
      by_cases hji : j = i
      · subst hji
        rw [upd_self]
        dsimp only
        rw [countP_append_not _ _ _ rfl]
        exact h.term_count j hj hgot
      · rw [upd_other _ _ _ _ hji] at hg ⊢
        rw [countP_append_not _ _ _ rfl]
        exact h.term_count j hj hg
    · intro j hj hg
      by_cases hji : j = i
      · subst hji
        rw [upd_self]
        dsimp only
        rw [countP_append_singleton]
        have hold := h.prov_count j hj hgot
        rw [ht] at hold
        simp [hold, Entry.isProvOf, provEmitted]
      · rw [upd_other _ _ _ _ hji] at hg ⊢
        rw [countP_append_singleton]
        have hne : (s.reqs i).rid ≠ (s.reqs j).rid :=
          Ne.symm (h.rid_inj j hj i hi hji hg hgot)
        simp [Entry.isProvOf, hne]
        exact h.prov_count j hj hg
    · intro w hw
      have hb := (h.rid_bounds i hi hgot).2
      have hne : (s.reqs i).rid ≠ w := by omega
      refine ⟨?_, ?_⟩
      · rw [countP_append_not _ _ _ rfl]
        exact (h.fresh_id w hw).1
      · rw [countP_append_singleton]
        have h0 := (h.fresh_id w hw).2
        simp [Entry.isProvOf, hne, h0]
    · rw [countP_append_not _ _ _ rfl]
      exact hdr_count_upd n s i hi _ h (by rfl)
    · exact noHeaderAfter_append_nonheader s.log _ h.no_hdr_after rfl
  | fired2 =>
    simp only [stepTimer, if_pos hi, ht]
    have hay : armedYet (s.reqs i).pc = true := by
      have h2 := h.timer_idle_iff i hi
      rw [ht] at h2
      simpa using h2
    have hgot : gotId (s.reqs i).pc = true := gotId_of_armedYet _ hay
    have hta : timerAdded (s.reqs i).pc = true := timerAdded_of_armedYet _ hay
    refine ⟨?_, ?_, ?_, ?_, ?_, ?_, ?_, ?_, ?_, ?_, ?_, ?_⟩ <;> dsimp only
    · exact counter_upd n s i hi _ h (by rfl)
    · intro j hj hg
      by_cases hji : j = i
      · subst hji
        rw [upd_self]
        dsimp only
        exact h.rid_bounds j hj hgot
      · rw [upd_other _ _ _ _ hji] at hg ⊢
        exact h.rid_bounds j hj hg
    · intro j hj k hk hjk hgj hgk
      by_cases hji : j = i
      · subst hji
        by_cases hki : k = j
        · exact absurd hki.symm hjk
        · rw [upd_self] at hgj ⊢
          rw [upd_other _ _ _ _ hki] at hgk ⊢
          dsimp only
          exact h.rid_inj j hj k hk hjk hgot hgk
      · by_cases hki : k = i
        · subst hki
          rw [upd_self] at hgk ⊢
          rw [upd_other _ _ _ _ hji] at hgj ⊢
          dsimp only
          exact h.rid_inj j hj k hk hjk hgj hgot
        · rw [upd_other _ _ _ _ hji] at hgj ⊢
          rw [upd_other _ _ _ _ hki] at hgk ⊢
          exact h.rid_inj j hj k hk hjk hgj hgk
    · intro j hj hp
      by_cases hji : j = i
      · subst hji
        rw [upd_self] at hp ⊢
        dsimp only at hp ⊢
        exact h.hdr_rid j hj hp
      · rw [upd_other _ _ _ _ hji] at hp ⊢
        exact h.hdr_rid j hj hp
    · intro j hj hp
      by_cases hji : j = i
      · subst hji
        rw [upd_self] at hp
        dsimp only at hp
        have hc := h.tdone_timer j hj hp
        rw [ht] at hc
        exact absurd hc (by decide)
      · rw [upd_other _ _ _ _ hji] at hp ⊢
        exact h.tdone_timer j hj hp
    · intro j hj
      by_cases hji : j = i
      · subst hji
        rw [upd_self]
        dsimp only
        simp [hay]
      · rw [upd_other _ _ _ _ hji]
        exact h.timer_idle_iff j hj
    · exact wg_upd_sub n s i hi _ h (by simp [units, timerUnit, timerReleased, ht, hta])
    · intro j hj hg
      by_cases hji : j = i
      · subst hji
        rw [upd_self]
        dsimp only
        exact h.term_count j hj hgot
      · rw [upd_other _ _ _ _ hji] at hg ⊢
        exact h.term_count j hj hg
    · intro j hj hg
      by_cases hji : j = i
      · subst hji
        rw [upd_self]
        dsimp only
        have hold := h.prov_count j hj hgot
        rw [ht] at hold
        exact hold.trans (by rfl)
      · rw [upd_other _ _ _ _ hji] at hg ⊢
        exact h.prov_count j hj hg
    · exact h.fresh_id
    · exact hdr_count_upd n s i hi _ h (by rfl)
    · exact h.no_hdr_after

theorem inv_step (n : Nat) (s : Sys) (h : Inv n s) (l : Label) : Inv n (step n s l) := by
  cases l with
  | rstep i => exact inv_stepReq n s i h
  | tstep i => exact inv_stepTimer n s i h

theorem inv_run (n : Nat) (inputs : Nat → HandlerOutcome) (sched : List Label) :
    Inv n (run n inputs sched) := by
  have hgen : ∀ (l : List Label) (s : Sys), Inv n s → Inv n (l.foldl (step n) s) := by
    intro l
    induction l with
    | nil => intro s hs; exact hs
    | cons a l ih =>
      intro s hs
      exact ih _ (inv_step n s hs a)
  exact hgen sched (initSys inputs) (inv_init n inputs)

end HandlerModel

namespace HijackModel

/-- Program counter of the goroutine serving the hijacked request: the
wait-group adds, `OnBeforeHandle` arming, the handler's pre-hijack response
writes, the `Hijack` call, the deferred `w3cHijackerLogger.OnAfterHandle`
(a no-op once hijacked), and the deferred `wg.Done`. -/
inductive HPC
  | wgAdd
  | tAdd
  | arm
  | preWrite
  | hijack
  | afterHandle
  | wgDone
  | done
deriving DecidableEq, Repr

/-- Program counter of one goroutine invoking `connWrap.Close`
(src/unnamed/part_002 lines 137-143): the `sync.Once` acquisition, the fold
of the post-hijack byte counter into `Written`, the timer `Stop`, the
conditional `Done`, the terminal write, and the underlying `Conn.Close`.
The `won` flag records whether this closer executed the once body. -/
inductive CPC
  | start
  | fold
  | cstop
  | ctDone
  | cemit (fired : Bool)
  | connClose (won : Bool)
  | cdone (won : Bool)
deriving DecidableEq, Repr

/-- Shared state of one hijacked request: the `w3cLogger` fields, the
`connWrap` byte counter, the `sync.Once` latch, the underlying connection,
and the goroutines' program counters. -/
structure HSys where
  wg : Int
  log : List HandlerModel.Entry
  status : Int
  written : Int
  werr : Option String
  timer : HandlerModel.TState
  hijacked : Bool
  bytesWritten : Int
  pendingWrites : List Int
  onceUsed : Bool
  connClosed : Bool
  reqPc : HPC
  closers : List CPC
deriving DecidableEq, Repr

/-- A schedule label: the request goroutine, the timer goroutine, one of
the closing goroutines, or a post-hijack connection write. -/
inductive HLabel
  | req
  | tmr
  | cls (j : Nat)
  | wr
deriving DecidableEq, Repr

def initH (writes : List Int) (k : Nat) : HSys :=
  { wg := 0, log := [], status := 200, written := 0, werr := none,
    timer := HandlerModel.TState.idle, hijacked := false, bytesWritten := 0,
    pendingWrites := writes, onceUsed := false, connClosed := false,
    reqPc := HPC.wgAdd, closers := List.replicate k CPC.start }

/-- One step of the request goroutine.  `Hijack` sets the hijacked flag and
the sentinel status -1; the deferred `w3cHijackerLogger.OnAfterHandle` runs
the full `OnAfterHandle` only when not hijacked (dead in this model, whose
driving handler always hijacks; the non-hijacked path is the
`HandlerModel` semantics). -/
def stepReqH (preBytes : Int) (s : HSys) : HSys :=
  match s.reqPc with
  | HPC.wgAdd => { s with wg := s.wg + 1, reqPc := HPC.tAdd }
  | HPC.tAdd => { s with wg := s.wg + 1, reqPc := HPC.arm }
  | HPC.arm => { s with timer := HandlerModel.TState.armed, reqPc := HPC.preWrite }
  | HPC.preWrite => { s with written := s.written + preBytes, reqPc := HPC.hijack }
  | HPC.hijack => { s with hijacked := true, status := -1, reqPc := HPC.afterHandle }
  | HPC.afterHandle =>
      if s.hijacked then { s with reqPc := HPC.wgDone } else s
  | HPC.wgDone => { s with wg := s.wg - 1, reqPc := HPC.done }
  | HPC.done => s

/-- One step of the provisional-timer goroutine (request identifier 1). -/
def stepTmrH (s : HSys) : HSys :=
  match s.timer with
  | HandlerModel.TState.armed => { s with timer := HandlerModel.TState.fired1 }
  | HandlerModel.TState.fired1 =>
      { s with log := s.log ++ [HandlerModel.Entry.prov 1],
               timer := HandlerModel.TState.fired2 }
  | HandlerModel.TState.fired2 =>
      { s with wg := s.wg - 1, timer := HandlerModel.TState.firedDone }
  | _ => s

/-- One post-hijack write through the wrapping transport: `Conn.Write`
followed by the atomic add to `bytesWritten`.  Enabled only once the
wrapper exists. -/
def stepWrH (s : HSys) : HSys :=
  if s.hijacked then
    match s.pendingWrites with
    | [] => s
    | m :: rest => { s with bytesWritten := s.bytesWritten + m, pendingWrites := rest }
  else s

/-- One step of closer goroutine `j` running `connWrap.Close`: the
`sync.Once` latch admits exactly the first acquirer to the body
(`Written += bytesWritten` then `OnAfterHandle`), all others skip straight
to the underlying `Conn.Close`. -/
def stepClsH (s : HSys) (j : Nat) : HSys :=
  if s.hijacked then
    match s.closers.get? j with
    | none => s
    | some c =>
      match c with
      | CPC.start =>
          if s.onceUsed then { s with closers := s.closers.set j (CPC.connClose false) }
          else { s with onceUsed := true, closers := s.closers.set j CPC.fold }
      | CPC.fold =>
          { s with written := s.written + s.bytesWritten,
                   closers := s.closers.set j CPC.cstop }
      | CPC.cstop =>
          if s.timer = HandlerModel.TState.armed then
            { s with timer := HandlerModel.TState.stopped,
                     closers := s.closers.set j CPC.ctDone }
          else { s with closers := s.closers.set j (CPC.cemit true) }
      | CPC.ctDone =>
          { s with wg := s.wg - 1, closers := s.closers.set j (CPC.cemit false) }
      | CPC.cemit fired =>
          { s with log := s.log ++
              [HandlerModel.Entry.term 1 s.status s.written s.werr fired],
                   closers := s.closers.set j (CPC.connClose true) }
      | CPC.connClose won =>
          { s with connClosed := true, closers := s.closers.set j (CPC.cdone won) }
      | CPC.cdone _ => s
  else s

def stepH (preBytes : Int) (s : HSys) : HLabel → HSys
  | HLabel.req => stepReqH preBytes s
  | HLabel.tmr => stepTmrH s
  | HLabel.cls j => stepClsH s j
  | HLabel.wr => stepWrH s

def runH (preBytes : Int) (writes : List Int) (k : Nat) (sched : List HLabel) : HSys :=
  sched.foldl (stepH preBytes) (initH writes k)

/-- Whether a closer has entered the once body or completed it as winner. -/
def inBodyOrWon : CPC → Bool
  | CPC.start => false
  | CPC.fold => true
  | CPC.cstop => true
  | CPC.ctDone => true
  | CPC.cemit _ => true
  | CPC.connClose w => w
  | CPC.cdone w => w

/-- Whether a closer has executed the once body's terminal write. -/
def wonPast : CPC → Bool
  | CPC.connClose w => w
  | CPC.cdone w => w
  | _ => false

/-- Whether a closer has executed the `Written += bytesWritten` fold. -/
def pastFold : CPC → Bool
  | CPC.cstop => true
  | CPC.ctDone => true
  | CPC.cemit _ => true
  | CPC.connClose w => w
  | CPC.cdone w => w
  | _ => false

def foldStarted (cs : List CPC) : Bool := cs.any pastFold

def pastHijack : HPC → Bool
  | HPC.afterHandle => true
  | HPC.wgDone => true
  | HPC.done => true
  | _ => false

def pastPreWrite : HPC → Bool
  | HPC.wgAdd => false
  | HPC.tAdd => false
  | HPC.arm => false
  | HPC.preWrite => false
  | _ => true

/-- Pre-hijack contribution of the response writes to `Written`. -/
def preContrib (preBytes : Int) (pc : HPC) : Int :=
  if pastPreWrite pc then preBytes else 0

def termWrittenVal : HandlerModel.Entry → Int
  | HandlerModel.Entry.term _ _ w _ _ => w
  | _ => 0

def isCls : HLabel → Bool
  | HLabel.cls _ => true
  | _ => false

def isWr : HLabel → Bool
  | HLabel.wr => true
  | _ => false

/-- True when no post-hijack write label occurs after the first close label
in the schedule. -/
def noWrAfterClose : List HLabel → Bool
  | [] => true
  | l :: rest =>
      if isCls l then rest.all (fun x => !(isWr x)) else noWrAfterClose rest

/-- The schedule-independent invariant of the once latch and the terminal
log: the latch is taken exactly when a closer is in or past the body, the
number of terminal records equals the number of closers past the body's
write, a skipping closer proves the latch was taken, and the hijacked flag
mirrors the request's program counter. -/
structure InvH (k : Nat) (s : HSys) : Prop where
  len : s.closers.length = k
  once_iff : (if s.onceUsed then 1 else 0) = s.closers.countP inBodyOrWon
  term_cnt : s.log.countP HandlerModel.Entry.isTermEntry = s.closers.countP wonPast
  skipper : ∀ c ∈ s.closers,
      (c = CPC.connClose false ∨ c = CPC.cdone false) → s.onceUsed = true
  hij_iff : s.hijacked = pastHijack s.reqPc

end HijackModel

namespace HijackModel

theorem countP_set (l : List CPC) (j : Nat) (v : CPC) (p : CPC → Bool) (hj : j < l.length) :
    (l.set j v).countP p + (if p (l.get ⟨j, hj⟩) then 1 else 0) =
      l.countP p + (if p v then 1 else 0) := by
  induction l generalizing j with
  | nil => simp at hj
  | cons a l ih =>
    cases j with
    | zero =>
      simp only [List.set, List.countP_cons, List.get]
      omega
    | succ j =>
      have hj2 : j < l.length := by simpa using hj
      have := ih j hj2
      simp only [List.set, List.countP_cons, List.get]
      omega

theorem countP_replicate_start (k : Nat) (p : CPC → Bool) (hp : p CPC.start = false) :
    (List.replicate k CPC.start).countP p = 0 := by
  rw [List.countP_eq_zero]
  intro c hc
  rw [List.eq_of_mem_replicate hc]
  simp [hp]

theorem invH_init (writes : List Int) (k : Nat) : InvH k (initH writes k) := by
  refine ⟨?_, ?_, ?_, ?_, ?_⟩
  · simp [initH]
  · simp [initH, countP_replicate_start k inBodyOrWon rfl]
  · simp [initH, countP_replicate_start k wonPast rfl]
  · intro c hc hshape
    exfalso
    simp only [initH] at hc
    rw [List.eq_of_mem_replicate hc] at hshape
    rcases hshape with h1 | h1 <;> exact absurd h1 (by decide)
  · simp [initH, pastHijack]

theorem invH_stepReq (preBytes : Int) (k : Nat) (s : HSys) (h : InvH k s) :
    InvH k (stepReqH preBytes s) := by
  cases hpc : s.reqPc
  case wgAdd =>
    simp only [stepReqH, hpc]
    refine ⟨h.len, h.once_iff, h.term_cnt, h.skipper, ?_⟩
    have hf := h.hij_iff
    rw [hpc] at hf
    simpa [pastHijack] using hf
  case tAdd =>
    simp only [stepReqH, hpc]
    refine ⟨h.len, h.once_iff, h.term_cnt, h.skipper, ?_⟩
    have hf := h.hij_iff
    rw [hpc] at hf
    simpa [pastHijack] using hf
  case arm =>
    simp only [stepReqH, hpc]
    refine ⟨h.len, h.once_iff, h.term_cnt, h.skipper, ?_⟩
    have hf := h.hij_iff
    rw [hpc] at hf
    simpa [pastHijack] using hf
  case preWrite =>
    simp only [stepReqH, hpc]
    refine ⟨h.len, h.once_iff, h.term_cnt, h.skipper, ?_⟩
    have hf := h.hij_iff
    rw [hpc] at hf
    simpa [pastHijack] using hf
  case hijack =>
    simp only [stepReqH, hpc]
    exact ⟨h.len, h.once_iff, h.term_cnt, h.skipper, rfl⟩
  case afterHandle =>
    simp only [stepReqH, hpc]
    by_cases hh : s.hijacked
    · rw [if_pos hh]
      refine ⟨h.len, h.once_iff, h.term_cnt, h.skipper, ?_⟩
      simp [pastHijack, hh]
    · rw [if_neg hh]
      exact h
  case wgDone =>
    simp only [stepReqH, hpc]
    refine ⟨h.len, h.once_iff, h.term_cnt, h.skipper, ?_⟩
    have hf := h.hij_iff
    rw [hpc] at hf
    simpa [pastHijack] using hf
  case done =>
    simp only [stepReqH, hpc]
    exact h

theorem invH_stepTmr (k : Nat) (s : HSys) (h : InvH k s) : InvH k (stepTmrH s) := by
  cases ht : s.timer
  case idle =>
    simp only [stepTmrH, ht]
    exact h
  case armed =>
    simp only [stepTmrH, ht]
    exact ⟨h.len, h.once_iff, h.term_cnt, h.skipper, h.hij_iff⟩
  case fired1 =>
    simp only [stepTmrH, ht]
    refine ⟨h.len, h.once_iff, ?_, h.skipper, h.hij_iff⟩
    dsimp only
    rw [HandlerModel.countP_append_not _ _ _ rfl]
    exact h.term_cnt
  case fired2 =>
    simp only [stepTmrH, ht]
    exact ⟨h.len, h.once_iff, h.term_cnt, h.skipper, h.hij_iff⟩
  case firedDone =>
    simp only [stepTmrH, ht]
    exact h
  case stopped =>
    simp only [stepTmrH, ht]
    exact h

theorem mem_set_cases {l : List CPC} {j : Nat} {v c : CPC} (hc : c ∈ l.set j v) :
    c ∈ l ∨ c = v := List.mem_or_eq_of_mem_set hc

theorem invH_stepCls (k : Nat) (s : HSys) (j : Nat) (h : InvH k s) :
    InvH k (stepClsH s j) := by
  rw [stepClsH]
  by_cases hh : s.hijacked
  swap
  · rw [if_neg hh]
    exact h
  rw [if_pos hh]
  cases hcg : s.closers.get? j with
  | none => exact h
  | some c =>
    have hj : j < s.closers.length := by
      by_contra hcon
      rw [List.get?_eq_none.mpr (by omega)] at hcg
      exact absurd hcg (by simp)
    have hget : s.closers.get ⟨j, hj⟩ = c := by
      rw [List.get?_eq_get hj] at hcg
      exact Option.some.inj hcg
    have hmem : c ∈ s.closers := hget ▸ List.get_mem s.closers j hj
    cases c with
    | start =>
      by_cases ho : s.onceUsed
      · rw [if_pos ho]
        refine ⟨?_, ?_, ?_, ?_, h.hij_iff⟩ <;> dsimp only
        · rw [List.length_set]; exact h.len
        · have hcs := countP_set s.closers j (CPC.connClose false) inBodyOrWon hj
          rw [hget] at hcs
          simp [inBodyOrWon] at hcs
          have h0 := h.once_iff
          rw [if_pos ho] at h0
          rw [if_pos ho]
          omega
        · have hcs := countP_set s.closers j (CPC.connClose false) wonPast hj
          rw [hget] at hcs
          simp [wonPast] at hcs
          have h0 := h.term_cnt
          omega
        · intro c2 hc2 hsh
          rcases mem_set_cases hc2 with hin | heq
          · exact h.skipper c2 hin hsh
          · exact ho
      · rw [if_neg ho]
        refine ⟨?_, ?_, ?_, ?_, h.hij_iff⟩ <;> dsimp only
        · rw [List.length_set]; exact h.len
        · have hcs := countP_set s.closers j CPC.fold inBodyOrWon hj
          rw [hget] at hcs
          simp [inBodyOrWon] at hcs
          have h0 := h.once_iff
          rw [if_neg ho] at h0
          simp only [if_true]
          omega
        · have hcs := countP_set s.closers j CPC.fold wonPast hj
          rw [hget] at hcs
          simp [wonPast] at hcs
          have h0 := h.term_cnt
          omega
        · intro c2 hc2 hsh
          rfl
    | fold =>
      refine ⟨?_, ?_, ?_, ?_, h.hij_iff⟩ <;> dsimp only
      · rw [List.length_set]; exact h.len
      · have hcs := countP_set s.closers j CPC.cstop inBodyOrWon hj
        rw [hget] at hcs
        simp [inBodyOrWon] at hcs
        have h0 := h.once_iff
        omega
      · have hcs := countP_set s.closers j CPC.cstop wonPast hj
        rw [hget] at hcs
        simp [wonPast] at hcs
        have h0 := h.term_cnt
        omega
      · intro c2 hc2 hsh
        rcases mem_set_cases hc2 with hin | heq
        · exact h.skipper c2 hin hsh
        · rw [heq] at hsh
          rcases hsh with h1 | h1 <;> exact absurd h1 (by decide)
    | cstop =>
      by_cases htm : s.timer = HandlerModel.TState.armed
      · rw [if_pos htm]
        refine ⟨?_, ?_, ?_, ?_, h.hij_iff⟩ <;> dsimp only
        · rw [List.length_set]; exact h.len
        · have hcs := countP_set s.closers j CPC.ctDone inBodyOrWon hj
          rw [hget] at hcs
          simp [inBodyOrWon] at hcs
          have h0 := h.once_iff
          omega
        · have hcs := countP_set s.closers j CPC.ctDone wonPast hj
          rw [hget] at hcs
          simp [wonPast] at hcs
          have h0 := h.term_cnt
          omega
        · intro c2 hc2 hsh
          rcases mem_set_cases hc2 with hin | heq
          · exact h.skipper c2 hin hsh
          · rw [heq] at hsh
            rcases hsh with h1 | h1 <;> exact absurd h1 (by decide)
      · rw [if_neg htm]
        refine ⟨?_, ?_, ?_, ?_, h.hij_iff⟩ <;> dsimp only
        · rw [List.length_set]; exact h.len
        · have hcs := countP_set s.closers j (CPC.cemit true) inBodyOrWon hj
          rw [hget] at hcs
          simp [inBodyOrWon] at hcs
          have h0 := h.once_iff
          omega
        · have hcs := countP_set s.closers j (CPC.cemit true) wonPast hj
          rw [hget] at hcs
          simp [wonPast] at hcs
          have h0 := h.term_cnt
          omega
        · intro c2 hc2 hsh
          rcases mem_set_cases hc2 with hin | heq
          · exact h.skipper c2 hin hsh
          · rw [heq] at hsh
            rcases hsh with h1 | h1 <;> exact absurd h1 (by decide)
    | ctDone =>
      refine ⟨?_, ?_, ?_, ?_, h.hij_iff⟩ <;> dsimp only
      · rw [List.length_set]; exact h.len
      · have hcs := countP_set s.closers j (CPC.cemit false) inBodyOrWon hj
        rw [hget] at hcs
        simp [inBodyOrWon] at hcs
        have h0 := h.once_iff
        omega
      · have hcs := countP_set s.closers j (CPC.cemit false) wonPast hj
        rw [hget] at hcs
        simp [wonPast] at hcs
        have h0 := h.term_cnt
        omega
      · intro c2 hc2 hsh
        rcases mem_set_cases hc2 with hin | heq
        · exact h.skipper c2 hin hsh
        · rw [heq] at hsh
          rcases hsh with h1 | h1 <;> exact absurd h1 (by decide)
    | cemit fired =>
      refine ⟨?_, ?_, ?_, ?_, h.hij_iff⟩ <;> dsimp only
      · rw [List.length_set]; exact h.len
      · have hcs := countP_set s.closers j (CPC.connClose true) inBodyOrWon hj
        rw [hget] at hcs
        simp [inBodyOrWon] at hcs
        have h0 := h.once_iff
        omega
      · have hcs := countP_set s.closers j (CPC.connClose true) wonPast hj
        rw [hget] at hcs
        simp [wonPast] at hcs
        rw [HandlerModel.countP_append_singleton]
        have h0 := h.term_cnt
        simp only [HandlerModel.Entry.isTermEntry, if_true]
        omega
      · intro c2 hc2 hsh
        rcases mem_set_cases hc2 with hin | heq
        · exact h.skipper c2 hin hsh
        · rw [heq] at hsh
          rcases hsh with h1 | h1 <;> exact absurd h1 (by decide)
    | connClose won =>
      refine ⟨?_, ?_, ?_, ?_, h.hij_iff⟩ <;> dsimp only
      · rw [List.length_set]; exact h.len
      · have hcs := countP_set s.closers j (CPC.cdone won) inBodyOrWon hj
        rw [hget] at hcs
        simp [inBodyOrWon] at hcs
        have h0 := h.once_iff
        omega
      · have hcs := countP_set s.closers j (CPC.cdone won) wonPast hj
        rw [hget] at hcs
        simp [wonPast] at hcs
        have h0 := h.term_cnt
        omega
      · intro c2 hc2 hsh
        rcases mem_set_cases hc2 with hin | heq
        · exact h.skipper c2 hin hsh
        · rw [heq] at hsh
          rcases hsh with h1 | h1
          · exact absurd h1 (by simp)
          · injection h1 with hw
            rw [hw] at hget
            exact h.skipper _ (hget ▸ List.get_mem s.closers j hj)
              (Or.inl rfl)
    | cdone won => exact h

theorem invH_stepWr (k : Nat) (s : HSys) (h : InvH k s) : InvH k (stepWrH s) := by
  rw [stepWrH]
  by_cases hh : s.hijacked
  · rw [if_pos hh]
    cases hp : s.pendingWrites with
    | nil => exact h
    | cons m rest => exact ⟨h.len, h.once_iff, h.term_cnt, h.skipper, h.hij_iff⟩
  · rw [if_neg hh]
    exact h

theorem invH_step (preBytes : Int) (k : Nat) (s : HSys) (h : InvH k s) (l : HLabel) :
    InvH k (stepH preBytes s l) := by
  cases l with
  | req => exact invH_stepReq preBytes k s h
  | tmr => exact invH_stepTmr k s h
  | cls j => exact invH_stepCls k s j h
  | wr => exact invH_stepWr k s h

theorem invH_run (preBytes : Int) (writes : List Int) (k : Nat) (sched : List HLabel) :
    InvH k (runH preBytes writes k sched) := by
  have hgen : ∀ (l : List HLabel) (s : HSys), InvH k s →
      InvH k (l.foldl (stepH preBytes) s) := by
    intro l
    induction l with
    | nil => intro s hs; exact hs
    | cons a l ih =>
      intro s hs
      exact ih _ (invH_step preBytes k s hs a)
  exact hgen sched (initH writes k) (invH_init writes k)

theorem countP_pos_of_mem {l : List CPC} {p : CPC → Bool} {c : CPC}
    (hc : c ∈ l) (hpc : p c = true) : 0 < l.countP p :=
  List.countP_pos.mpr ⟨c, hc, hpc⟩

theorem countP_two (l : List CPC) (p : CPC → Bool) (j : Nat) (hj : j < l.length)
    (hpj : p (l.get ⟨j, hj⟩) = true) (c : CPC) (hc : c ∈ l) (hne : c ≠ l.get ⟨j, hj⟩)
    (hpc : p c = true) : 2 ≤ l.countP p := by
  induction l generalizing j with
  | nil => simp at hj
  | cons a l ih =>
    cases j with
    | zero =>
      simp only [List.get] at hpj hne
      have hcl : c ∈ l := by
        rcases List.mem_cons.mp hc with h1 | h1
        · exact absurd h1 hne
        · exact h1
      have h1 := countP_pos_of_mem hcl hpc
      have h2 : (a :: l).countP p = l.countP p + 1 := by
        rw [List.countP_cons, hpj]
        rfl
      omega
    | succ j =>
      have hj2 : j < l.length := by simpa using hj
      simp only [List.get] at hpj hne
      rcases List.mem_cons.mp hc with h1 | h1
      · subst h1
        have hg : l.get ⟨j, hj2⟩ ∈ l := List.get_mem l j hj2
        have h2 := countP_pos_of_mem hg hpj
        have h3 : (c :: l).countP p = l.countP p + 1 := by
          rw [List.countP_cons, hpc]
          rfl
        omega
      · have h2 := ih j hj2 hpj h1 hne
        have h3 : l.countP p ≤ (a :: l).countP p := by
          rw [List.countP_cons]
          omega
        omega

theorem countP_congr_mem (l : List CPC) (p q : CPC → Bool)
    (h : ∀ c ∈ l, p c = q c) : l.countP p = l.countP q := by
  induction l with
  | nil => rfl
  | cons a l ih =>
    rw [List.countP_cons, List.countP_cons, h a (by simp),
      ih (fun c hc => h c (by simp [hc]))]

theorem pastFold_inBodyOrWon (c : CPC) (h : pastFold c = true) : inBodyOrWon c = true := by
  cases c <;> simp [pastFold, inBodyOrWon] at h ⊢ <;> exact h

theorem foldStarted_iff (cs : List CPC) :
    foldStarted cs = true ↔ 0 < cs.countP pastFold := by
  rw [foldStarted, List.any_eq_true, List.countP_pos]

theorem pastHijack_pastPreWrite (pc : HPC) (h : pastHijack pc = true) :
    pastPreWrite pc = true := by
  cases pc <;> simp [pastHijack, pastPreWrite] at h ⊢

/-- The pre-close phase: no close has run, the latch is free, `Written`
holds only the pre-hijack bytes, no terminal record exists, and the
connection-write conservation holds. -/
structure PreInv (preBytes : Int) (writes : List Int) (k : Nat) (s : HSys) : Prop where
  closers_eq : s.closers = List.replicate k CPC.start
  once_f : s.onceUsed = false
  written_eq : s.written = preContrib preBytes s.reqPc
  noterm : s.log.countP HandlerModel.Entry.isTermEntry = 0
  hij : s.hijacked = pastHijack s.reqPc
  consv : s.bytesWritten + s.pendingWrites.sum = writes.sum

theorem preInv_init (preBytes : Int) (writes : List Int) (k : Nat) :
    PreInv preBytes writes k (initH writes k) := by
  refine ⟨rfl, rfl, ?_, rfl, rfl, ?_⟩
  · simp [initH, preContrib, pastPreWrite]
  · simp [initH]

theorem preInv_stepReq (preBytes : Int) (writes : List Int) (k : Nat) (s : HSys)
    (h : PreInv preBytes writes k s) : PreInv preBytes writes k (stepReqH preBytes s) := by
  cases hpc : s.reqPc
  case wgAdd =>
    simp only [stepReqH, hpc]
    refine ⟨h.closers_eq, h.once_f, ?_, h.noterm, ?_, h.consv⟩
    · have := h.written_eq; rw [hpc] at this; simpa [preContrib, pastPreWrite] using this
    · have := h.hij; rw [hpc] at this; simpa [pastHijack] using this
  case tAdd =>
    simp only [stepReqH, hpc]
    refine ⟨h.closers_eq, h.once_f, ?_, h.noterm, ?_, h.consv⟩
    · have := h.written_eq; rw [hpc] at this; simpa [preContrib, pastPreWrite] using this
    · have := h.hij; rw [hpc] at this; simpa [pastHijack] using this
  case arm =>
    simp only [stepReqH, hpc]
    refine ⟨h.closers_eq, h.once_f, ?_, h.noterm, ?_, h.consv⟩
    · have := h.written_eq; rw [hpc] at this; simpa [preContrib, pastPreWrite] using this
    · have := h.hij; rw [hpc] at this; simpa [pastHijack] using this
  case preWrite =>
    simp only [stepReqH, hpc]
    refine ⟨h.closers_eq, h.once_f, ?_, h.noterm, ?_, h.consv⟩
    · have := h.written_eq
      rw [hpc] at this
      simp [preContrib, pastPreWrite] at this
      simp [preContrib, pastPreWrite, this]
    · have := h.hij; rw [hpc] at this; simpa [pastHijack] using this
  case hijack =>
    simp only [stepReqH, hpc]
    refine ⟨h.closers_eq, h.once_f, ?_, h.noterm, rfl, h.consv⟩
    have := h.written_eq
    rw [hpc] at this
    simpa [preContrib, pastPreWrite] using this
  case afterHandle =>
    by_cases hh : s.hijacked
    · simp only [stepReqH, hpc]
      rw [if_pos hh]
      refine ⟨h.closers_eq, h.once_f, ?_, h.noterm, ?_, h.consv⟩
      · have := h.written_eq
        rw [hpc] at this
        simpa [preContrib, pastPreWrite] using this
      · simp [pastHijack, hh]
    · simp only [stepReqH, hpc]
      rw [if_neg hh]
      exact h
  case wgDone =>
    simp only [stepReqH, hpc]
    refine ⟨h.closers_eq, h.once_f, ?_, h.noterm, ?_, h.consv⟩
    · have := h.written_eq
      rw [hpc] at this
      simpa [preContrib, pastPreWrite] using this
    · have := h.hij; rw [hpc] at this; simpa [pastHijack] using this
  case done =>
    simp only [stepReqH, hpc]
    exact h

theorem preInv_stepTmr (preBytes : Int) (writes : List Int) (k : Nat) (s : HSys)
    (h : PreInv preBytes writes k s) : PreInv preBytes writes k (stepTmrH s) := by
  cases ht : s.timer
  case idle => simp only [stepTmrH, ht]; exact h
  case firedDone => simp only [stepTmrH, ht]; exact h
  case stopped => simp only [stepTmrH, ht]; exact h
  case armed =>
    simp only [stepTmrH, ht]
    exact ⟨h.closers_eq, h.once_f, h.written_eq, h.noterm, h.hij, h.consv⟩
  case fired1 =>
    simp only [stepTmrH, ht]
    refine ⟨h.closers_eq, h.once_f, h.written_eq, ?_, h.hij, h.consv⟩
    dsimp only
    rw [HandlerModel.countP_append_not _ _ _ rfl]
    exact h.noterm
  case fired2 =>
    simp only [stepTmrH, ht]
    exact ⟨h.closers_eq, h.once_f, h.written_eq, h.noterm, h.hij, h.consv⟩

theorem preInv_stepWr (preBytes : Int) (writes : List Int) (k : Nat) (s : HSys)
    (h : PreInv preBytes writes k s) : PreInv preBytes writes k (stepWrH s) := by
  rw [stepWrH]
  by_cases hh : s.hijacked
  · rw [if_pos hh]
    cases hp : s.pendingWrites with
    | nil => exact h
    | cons m rest =>
      refine ⟨h.closers_eq, h.once_f, h.written_eq, h.noterm, h.hij, ?_⟩
      have := h.consv
      rw [hp] at this
      dsimp only
      rw [List.sum_cons] at this
      omega
  · rw [if_neg hh]
    exact h

theorem preInv_fold (preBytes : Int) (writes : List Int) (k : Nat) (a : List HLabel)
    (ha : ∀ l ∈ a, isCls l = false) :
    ∀ s : HSys, PreInv preBytes writes k s →
      PreInv preBytes writes k (a.foldl (stepH preBytes) s) := by
  induction a with
  | nil => intro s hs; exact hs
  | cons l a ih =>
    intro s hs
    have hl := ha l (by simp)
    have ha2 : ∀ x ∈ a, isCls x = false := fun x hx => ha x (by simp [hx])
    rw [List.foldl_cons]
    refine ih ha2 _ ?_
    cases l with
    | req => exact preInv_stepReq preBytes writes k s hs
    | tmr => exact preInv_stepTmr preBytes writes k s hs
    | wr => exact preInv_stepWr preBytes writes k s hs
    | cls j => simp [isCls] at hl

theorem invH_fold (preBytes : Int) (k : Nat) (b : List HLabel) :
    ∀ s : HSys, InvH k s → InvH k (b.foldl (stepH preBytes) s) := by
  induction b with
  | nil => intro s hs; exact hs
  | cons l b ih =>
    intro s hs
    rw [List.foldl_cons]
    exact ih _ (invH_step preBytes k s hs l)

theorem pend_bw_step (preBytes : Int) (s : HSys) (l : HLabel) (hl : isWr l = false) :
    (stepH preBytes s l).pendingWrites = s.pendingWrites ∧
      (stepH preBytes s l).bytesWritten = s.bytesWritten := by
  cases l with
  | wr => simp [isWr] at hl
  | tmr =>
    cases ht : s.timer <;> simp only [stepH, stepTmrH, ht] <;> constructor <;> trivial
  | req =>
    cases hpc : s.reqPc <;> simp only [stepH, stepReqH, hpc] <;>
      first
        | (constructor <;> trivial)
        | (split <;> constructor <;> trivial)
  | cls j =>
    rw [stepH, stepClsH]
    by_cases hh : s.hijacked
    · rw [if_pos hh]
      cases hcg : s.closers.get? j with
      | none => exact ⟨rfl, rfl⟩
      | some c =>
        cases c <;> dsimp only <;>
          first
            | exact ⟨rfl, rfl⟩
            | (split <;> exact ⟨rfl, rfl⟩)
    · rw [if_neg hh]
      exact ⟨rfl, rfl⟩

theorem pend_bw_fold (preBytes : Int) (b : List HLabel)
    (hb : ∀ l ∈ b, isWr l = false) :
    ∀ s : HSys, (b.foldl (stepH preBytes) s).pendingWrites = s.pendingWrites ∧
      (b.foldl (stepH preBytes) s).bytesWritten = s.bytesWritten := by
  induction b with
  | nil => intro s; exact ⟨rfl, rfl⟩
  | cons l b ih =>
    intro s
    have hl := hb l (by simp)
    have hb2 : ∀ x ∈ b, isWr x = false := fun x hx => hb x (by simp [hx])
    rw [List.foldl_cons]
    have h1 := pend_bw_step preBytes s l hl
    have h2 := ih hb2 (stepH preBytes s l)
    exact ⟨h2.1.trans h1.1, h2.2.trans h1.2⟩

theorem split_first_cls (sched : List HLabel) :
    (∀ l ∈ sched, isCls l = false) ∨
      ∃ a j b, sched = a ++ HLabel.cls j :: b ∧ ∀ l ∈ a, isCls l = false := by
  induction sched with
  | nil => exact Or.inl (by simp)
  | cons l sched ih =>
    cases l with
    | cls j => exact Or.inr ⟨[], j, sched, by simp, by simp⟩
    | req =>
      rcases ih with h1 | ⟨a, j, b, heq, ha⟩
      · exact Or.inl (List.forall_mem_cons.mpr ⟨rfl, h1⟩)
      · exact Or.inr ⟨HLabel.req :: a, j, b, by rw [heq]; rfl,
          List.forall_mem_cons.mpr ⟨rfl, ha⟩⟩
    | tmr =>
      rcases ih with h1 | ⟨a, j, b, heq, ha⟩
      · exact Or.inl (List.forall_mem_cons.mpr ⟨rfl, h1⟩)
      · exact Or.inr ⟨HLabel.tmr :: a, j, b, by rw [heq]; rfl,
          List.forall_mem_cons.mpr ⟨rfl, ha⟩⟩
    | wr =>
      rcases ih with h1 | ⟨a, j, b, heq, ha⟩
      · exact Or.inl (List.forall_mem_cons.mpr ⟨rfl, h1⟩)
      · exact Or.inr ⟨HLabel.wr :: a, j, b, by rw [heq]; rfl,
          List.forall_mem_cons.mpr ⟨rfl, ha⟩⟩

theorem noWr_suffix (a : List HLabel) (ha : ∀ l ∈ a, isCls l = false)
    (j : Nat) (b : List HLabel)
    (h : noWrAfterClose (a ++ HLabel.cls j :: b) = true) :
    ∀ l ∈ b, isWr l = false := by
  induction a with
  | nil =>
    simp only [List.nil_append, noWrAfterClose, isCls, if_true] at h
    intro l hl
    have := List.all_eq_true.mp h l hl
    simpa using this
  | cons x a ih =>
    have hx := ha x (by simp)
    rw [List.cons_append, noWrAfterClose, hx] at h
    simp only [Bool.false_eq_true, if_false] at h
    exact ih (fun y hy => ha y (by simp [hy])) h

theorem mem_set_self (l : List CPC) (j : Nat) (v : CPC) (hj : j < l.length) :
    v ∈ l.set j v := by
  induction l generalizing j with
  | nil => simp at hj
  | cons a l ih =>
    cases j with
    | zero => exact List.mem_cons_self v l
    | succ j =>
      have hj2 : j < l.length := by simpa using hj
      exact List.mem_cons.mpr (Or.inr (ih j hj2))

theorem foldStarted_of_mem {l : List CPC} {c : CPC} (hc : c ∈ l)
    (hp : pastFold c = true) : foldStarted l = true := by
  rw [foldStarted, List.any_eq_true]
  exact ⟨c, hc, hp⟩

theorem foldStarted_set_eq (l : List CPC) (j : Nat) (v : CPC) (hj : j < l.length)
    (hv : pastFold v = pastFold (l.get ⟨j, hj⟩)) :
    foldStarted (l.set j v) = foldStarted l := by
  have hcs := countP_set l j v pastFold hj
  rw [hv] at hcs
  have h2 : (l.set j v).countP pastFold = l.countP pastFold := by omega
  have hiff1 := foldStarted_iff (l.set j v)
  have hiff2 := foldStarted_iff l
  rw [h2] at hiff1
  cases hfs : foldStarted (l.set j v) <;> cases hfl : foldStarted l <;> try rfl
  · rw [hfs] at hiff1
    rw [hfl] at hiff2
    exact absurd (hiff1.mpr (hiff2.mp rfl)) (by simp)
  · rw [hfs] at hiff1
    rw [hfl] at hiff2
    exact absurd (hiff2.mpr (hiff1.mp rfl)) (by simp)

/-- The post-close phase (no further connection writes pending or arriving):
the write queue is drained, `bytesWritten` is frozen at the total `W`,
`Written` accounts for `W` exactly when the once body's fold has run, and
every terminal record already carries the full byte count. -/
structure PostInv (preBytes W : Int) (s : HSys) : Prop where
  pend : s.pendingWrites = []
  bw : s.bytesWritten = W
  written_eq : s.written =
      preContrib preBytes s.reqPc + (if foldStarted s.closers then W else 0)
  terms : ∀ e ∈ s.log, HandlerModel.Entry.isTermEntry e = true →
      termWrittenVal e = preBytes + W

theorem postInv_stepReq (preBytes W : Int) (s : HSys)
    (hP : PostInv preBytes W s) : PostInv preBytes W (stepReqH preBytes s) := by
  cases hpc : s.reqPc
  case wgAdd =>
    simp only [stepReqH, hpc]
    refine ⟨hP.pend, hP.bw, ?_, hP.terms⟩
    have hw := hP.written_eq
    rw [hpc] at hw
    simpa [preContrib, pastPreWrite] using hw
  case tAdd =>
    simp only [stepReqH, hpc]
    refine ⟨hP.pend, hP.bw, ?_, hP.terms⟩
    have hw := hP.written_eq
    rw [hpc] at hw
    simpa [preContrib, pastPreWrite] using hw
  case arm =>
    simp only [stepReqH, hpc]
    refine ⟨hP.pend, hP.bw, ?_, hP.terms⟩
    have hw := hP.written_eq
    rw [hpc] at hw
    simpa [preContrib, pastPreWrite] using hw
  case preWrite =>
    simp only [stepReqH, hpc]
    refine ⟨hP.pend, hP.bw, ?_, hP.terms⟩
    have hw := hP.written_eq
    rw [hpc] at hw
    simp [preContrib, pastPreWrite] at hw ⊢
    omega
  case hijack =>
    simp only [stepReqH, hpc]
    refine ⟨hP.pend, hP.bw, ?_, hP.terms⟩
    have hw := hP.written_eq
    rw [hpc] at hw
    simpa [preContrib, pastPreWrite] using hw
  case afterHandle =>
    by_cases hh : s.hijacked
    · simp only [stepReqH, hpc]
      rw [if_pos hh]
      refine ⟨hP.pend, hP.bw, ?_, hP.terms⟩
      have hw := hP.written_eq
      rw [hpc] at hw
      simpa [preContrib, pastPreWrite] using hw
    · simp only [stepReqH, hpc]
      rw [if_neg hh]
      exact hP
  case wgDone =>
    simp only [stepReqH, hpc]
    refine ⟨hP.pend, hP.bw, ?_, hP.terms⟩
    have hw := hP.written_eq
    rw [hpc] at hw
    simpa [preContrib, pastPreWrite] using hw
  case done =>
    simp only [stepReqH, hpc]
    exact hP

theorem postInv_stepTmr (preBytes W : Int) (s : HSys)
    (hP : PostInv preBytes W s) : PostInv preBytes W (stepTmrH s) := by
  cases ht : s.timer
  case idle => simp only [stepTmrH, ht]; exact hP
  case firedDone => simp only [stepTmrH, ht]; exact hP
  case stopped => simp only [stepTmrH, ht]; exact hP
  case armed =>
    simp only [stepTmrH, ht]
    exact ⟨hP.pend, hP.bw, hP.written_eq, hP.terms⟩
  case fired1 =>
    simp only [stepTmrH, ht]
    refine ⟨hP.pend, hP.bw, hP.written_eq, ?_⟩
    intro e he hterm
    dsimp only at he
    rcases List.mem_append.mp he with h1 | h1
    · exact hP.terms e h1 hterm
    · rw [List.mem_singleton.mp h1] at hterm
      simp [HandlerModel.Entry.isTermEntry] at hterm
  case fired2 =>
    simp only [stepTmrH, ht]
    exact ⟨hP.pend, hP.bw, hP.written_eq, hP.terms⟩

theorem postInv_stepCls (preBytes W : Int) (k : Nat) (s : HSys) (j : Nat)
    (hH : InvH k s) (hP : PostInv preBytes W s) :
    PostInv preBytes W (stepClsH s j) := by
  rw [stepClsH]
  by_cases hh : s.hijacked
  swap
  · rw [if_neg hh]
    exact hP
  rw [if_pos hh]
  cases hcg : s.closers.get? j with
  | none => exact hP
  | some c =>
    have hj : j < s.closers.length := by
      by_contra hcon
      rw [List.get?_eq_none.mpr (by omega)] at hcg
      exact absurd hcg (by simp)
    have hget : s.closers.get ⟨j, hj⟩ = c := by
      rw [List.get?_eq_get hj] at hcg
      exact Option.some.inj hcg
    have hmem : c ∈ s.closers := hget ▸ List.get_mem s.closers j hj
    have hph : pastHijack s.reqPc = true := by
      rw [← hH.hij_iff]
      exact hh
    cases c with
    | start =>
      by_cases ho : s.onceUsed
      · rw [if_pos ho]
        refine ⟨hP.pend, hP.bw, ?_, hP.terms⟩
        dsimp only
        rw [foldStarted_set_eq s.closers j (CPC.connClose false) hj (by rw [hget]; rfl)]
        exact hP.written_eq
      · rw [if_neg ho]
        refine ⟨hP.pend, hP.bw, ?_, hP.terms⟩
        dsimp only
        rw [foldStarted_set_eq s.closers j CPC.fold hj (by rw [hget]; rfl)]
        exact hP.written_eq
    | fold =>
      have hfs : foldStarted s.closers = false := by
        cases hf2 : foldStarted s.closers
        · rfl
        · exfalso
          rw [foldStarted, List.any_eq_true] at hf2
          obtain ⟨c2, hc2, hp2⟩ := hf2
          have hne : c2 ≠ s.closers.get ⟨j, hj⟩ := by
            rw [hget]
            intro hcon
            rw [hcon] at hp2
            simp [pastFold] at hp2
          have h2 := countP_two s.closers inBodyOrWon j hj
            (by rw [hget]; rfl) c2 hc2 hne (pastFold_inBodyOrWon c2 hp2)
          have h0 := hH.once_iff
          by_cases ho : s.onceUsed
          · rw [if_pos ho] at h0
            omega
          · rw [if_neg ho] at h0
            omega
      refine ⟨hP.pend, hP.bw, ?_, hP.terms⟩
      dsimp only
      have hw := hP.written_eq
      rw [hfs] at hw
      simp only [Bool.false_eq_true, if_false, add_zero] at hw
      have hnew : foldStarted (s.closers.set j CPC.cstop) = true :=
        foldStarted_of_mem (mem_set_self s.closers j CPC.cstop hj) rfl
      rw [hnew]
      simp only [if_true]
      have hbw := hP.bw
      omega
    | cstop =>
      have hold : foldStarted s.closers = true := foldStarted_of_mem hmem rfl
      dsimp only
      split
      · refine ⟨hP.pend, hP.bw, ?_, hP.terms⟩
        dsimp only
        have hnew : foldStarted (s.closers.set j CPC.ctDone) = true :=
          foldStarted_of_mem (mem_set_self s.closers j CPC.ctDone hj) rfl
        rw [hnew]
        have hw := hP.written_eq
        rw [hold] at hw
        exact hw
      · refine ⟨hP.pend, hP.bw, ?_, hP.terms⟩
        dsimp only
        have hnew : foldStarted (s.closers.set j (CPC.cemit true)) = true :=
          foldStarted_of_mem (mem_set_self s.closers j (CPC.cemit true) hj) rfl
        rw [hnew]
        have hw := hP.written_eq
        rw [hold] at hw
        exact hw
    | ctDone =>
      have hold : foldStarted s.closers = true := foldStarted_of_mem hmem rfl
      refine ⟨hP.pend, hP.bw, ?_, hP.terms⟩
      dsimp only
      have hnew : foldStarted (s.closers.set j (CPC.cemit false)) = true :=
        foldStarted_of_mem (mem_set_self s.closers j (CPC.cemit false) hj) rfl
      rw [hnew]
      have hw := hP.written_eq
      rw [hold] at hw
      exact hw
    | cemit fired =>
      have hold : foldStarted s.closers = true := foldStarted_of_mem hmem rfl
      have hwv : s.written = preBytes + W := by
        have hw := hP.written_eq
        rw [hold] at hw
        simp only [if_true] at hw
        have hpw := pastHijack_pastPreWrite s.reqPc hph
        rw [preContrib, hpw] at hw
        simpa using hw
      refine ⟨hP.pend, hP.bw, ?_, ?_⟩
      · dsimp only
        have hnew : foldStarted (s.closers.set j (CPC.connClose true)) = true :=
          foldStarted_of_mem (mem_set_self s.closers j (CPC.connClose true) hj) rfl
        rw [hnew]
        have hw := hP.written_eq
        rw [hold] at hw
        exact hw
      · intro e he hterm
        dsimp only at he
        rcases List.mem_append.mp he with h1 | h1
        · exact hP.terms e h1 hterm
        · rw [List.mem_singleton.mp h1]
          exact hwv
    | connClose won =>
      refine ⟨hP.pend, hP.bw, ?_, hP.terms⟩
      dsimp only
      rw [foldStarted_set_eq s.closers j (CPC.cdone won) hj (by rw [hget]; cases won <;> rfl)]
      exact hP.written_eq
    | cdone won =>
      exact hP

theorem postInv_fold (preBytes W : Int) (k : Nat) (b : List HLabel)
    (hb : ∀ l ∈ b, isWr l = false) :
    ∀ s : HSys, InvH k s → PostInv preBytes W s →
      PostInv preBytes W (b.foldl (stepH preBytes) s) := by
  induction b with
  | nil => intro s _ hP; exact hP
  | cons l b ih =>
    intro s hH hP
    have hl := hb l (by simp)
    have hb2 : ∀ x ∈ b, isWr x = false := fun x hx => hb x (by simp [hx])
    rw [List.foldl_cons]
    refine ih hb2 _ (invH_step preBytes k s hH l) ?_
    cases l with
    | req => exact postInv_stepReq preBytes W s hP
    | tmr => exact postInv_stepTmr preBytes W s hP
    | cls j => exact postInv_stepCls preBytes W k s j hH hP
    | wr => simp [isWr] at hl

theorem closers_done_term_once (k : Nat) (s : HSys) (hH : InvH k s) (hk : 1 ≤ k)
    (hdone : ∀ c ∈ s.closers, c = CPC.cdone true ∨ c = CPC.cdone false) :
    s.log.countP HandlerModel.Entry.isTermEntry = 1 := by
  have hlen := hH.len
  cases hcs : s.closers with
  | nil =>
    rw [hcs] at hlen
    simp at hlen
    omega
  | cons c0 rest =>
    have hc0 : c0 ∈ s.closers := by
      rw [hcs]
      exact List.mem_cons_self c0 rest
    have ho : s.onceUsed = true := by
      rcases hdone c0 hc0 with h1 | h1
      · have h2 : 0 < s.closers.countP inBodyOrWon :=
          countP_pos_of_mem hc0 (by rw [h1]; rfl)
        have h3 := hH.once_iff
        by_contra hcon
        rw [if_neg hcon] at h3
        omega
      · exact hH.skipper c0 hc0 (Or.inr h1)
    have h4 := hH.once_iff
    rw [if_pos ho] at h4
    have h5 : s.closers.countP wonPast = s.closers.countP inBodyOrWon := by
      refine countP_congr_mem s.closers wonPast inBodyOrWon ?_
      intro c hc
      rcases hdone c hc with h1 | h1 <;> rw [h1] <;> rfl
    rw [hH.term_cnt, h5, ← h4]

theorem hijack_written_complete (preBytes : Int) (writes : List Int) (k : Nat)
    (sched : List HLabel) (hk : 1 ≤ k)
    (hnowr : noWrAfterClose sched = true)
    (hpend : (runH preBytes writes k sched).pendingWrites = [])
    (hdone : ∀ c ∈ (runH preBytes writes k sched).closers,
        c = CPC.cdone true ∨ c = CPC.cdone false) :
    (runH preBytes writes k sched).log.countP HandlerModel.Entry.isTermEntry = 1 ∧
      ∀ e ∈ (runH preBytes writes k sched).log,
        HandlerModel.Entry.isTermEntry e = true →
          termWrittenVal e = preBytes + writes.sum := by
  rcases split_first_cls sched with hnocls | ⟨a, j, b, heq, ha⟩
  · exfalso
    have hPre := preInv_fold preBytes writes k sched hnocls _
      (preInv_init preBytes writes k)
    have hmem : CPC.start ∈ (runH preBytes writes k sched).closers := by
      rw [runH, hPre.closers_eq]
      exact List.mem_replicate.mpr ⟨by omega, rfl⟩
    rcases hdone _ hmem with h1 | h1 <;> simp at h1
  · subst heq
    have hfold : runH preBytes writes k (a ++ HLabel.cls j :: b) =
        (HLabel.cls j :: b).foldl (stepH preBytes)
          (a.foldl (stepH preBytes) (initH writes k)) := by
      rw [runH, List.foldl_append]
    have hP1 := preInv_fold preBytes writes k a ha _
      (preInv_init preBytes writes k)
    have hH1 : InvH k (a.foldl (stepH preBytes) (initH writes k)) :=
      invH_fold preBytes k a _ (invH_init writes k)
    have hwrb : ∀ l ∈ b, isWr l = false := noWr_suffix a ha j b hnowr
    have hwrall : ∀ l ∈ (HLabel.cls j :: b), isWr l = false := by
      intro l hl
      rcases List.mem_cons.mp hl with h1 | h1
      · rw [h1]; rfl
      · exact hwrb l h1
    have hconst := pend_bw_fold preBytes (HLabel.cls j :: b) hwrall
      (a.foldl (stepH preBytes) (initH writes k))
    have hpend1 : (a.foldl (stepH preBytes) (initH writes k)).pendingWrites = [] := by
      rw [← hconst.1, ← hfold]
      exact hpend
    have hbw1 : (a.foldl (stepH preBytes) (initH writes k)).bytesWritten = writes.sum := by
      have hc := hP1.consv
      rw [hpend1] at hc
      simpa using hc
    have hPost1 : PostInv preBytes writes.sum
        (a.foldl (stepH preBytes) (initH writes k)) := by
      refine ⟨hpend1, hbw1, ?_, ?_⟩
      · have hfs : foldStarted (a.foldl (stepH preBytes) (initH writes k)).closers
            = false := by
          cases hf2 : foldStarted (a.foldl (stepH preBytes) (initH writes k)).closers
          · rfl
          · exfalso
            have h1 := (foldStarted_iff _).mp hf2
            rw [hP1.closers_eq, countP_replicate_start k pastFold rfl] at h1
            omega
        rw [hfs]
        simp only [Bool.false_eq_true, if_false, add_zero]
        exact hP1.written_eq
      · intro e he hterm
        exfalso
        have h0 := hP1.noterm
        have h1 : 0 < (a.foldl (stepH preBytes) (initH writes k)).log.countP
            HandlerModel.Entry.isTermEntry := List.countP_pos.mpr ⟨e, he, hterm⟩
        omega
    have hPostF := postInv_fold preBytes writes.sum k (HLabel.cls j :: b) hwrall
      (a.foldl (stepH preBytes) (initH writes k)) hH1 hPost1
    have hHF : InvH k ((HLabel.cls j :: b).foldl (stepH preBytes)
        (a.foldl (stepH preBytes) (initH writes k))) :=
      invH_fold preBytes k (HLabel.cls j :: b) _ hH1
    constructor
    · rw [hfold]
      refine closers_done_term_once k _ hHF hk ?_
      rw [← hfold]
      exact hdone
    · intro e he hterm
      rw [hfold] at he
      exact hPostF.terms e he hterm

end HijackModel

namespace HandlerModel

/-- Whether a goroutine is blocked in the hijack path (the type assertion
for `http.Hijacker` succeeded and the handler proceeded to hijack). -/
def isHijackStuck : RPC → Bool
  | RPC.hijackStuck => true
  | _ => false

theorem goHasHijack_w3c : goHasHijack w3cLoggerMethodSet = false := by decide

theorem units_nonneg (r : ReqState) : 0 ≤ units r := by
  have h1 : 0 ≤ reqUnit r.pc := by cases r.pc <;> simp [reqUnit]
  have h2 : 0 ≤ timerUnit r := by
    rw [timerUnit]
    split <;> simp
  rw [units]
  omega

theorem not_stuck_stepReq (n : Nat) (s : Sys) (i0 : Nat)
    (hs : ∀ i, isHijackStuck ((s.reqs i).pc) = false) (i : Nat) :
    isHijackStuck (((stepReq n s i0).reqs i).pc) = false := by
  by_cases hlt : i0 < n
  swap
  · simp only [stepReq, if_neg hlt]
    exact hs i
  cases hpc : (s.reqs i0).pc with
  | wgAdd =>
    simp only [stepReq, if_pos hlt, hpc]
    by_cases hii : i = i0
    · subst hii
      simp [upd, isHijackStuck]
    · simp [upd, hii]
      exact hs i
  | getId =>
    simp only [stepReq, if_pos hlt, hpc]
    by_cases hii : i = i0
    · subst hii
      simp [upd]
      split <;> rfl
    · simp [upd, hii]
      exact hs i
  | hdr1 =>
    simp only [stepReq, if_pos hlt, hpc]
    by_cases hii : i = i0
    · subst hii
      simp [upd, isHijackStuck]
    · simp [upd, hii]
      exact hs i
  | hdr2 =>
    simp only [stepReq, if_pos hlt, hpc]
    by_cases hii : i = i0
    · subst hii
      simp [upd, isHijackStuck]
    · simp [upd, hii]
      exact hs i
  | hdr3 =>
    simp only [stepReq, if_pos hlt, hpc]
    by_cases hii : i = i0
    · subst hii
      simp [upd, isHijackStuck]
    · simp [upd, hii]
      exact hs i
  | tAdd =>
    simp only [stepReq, if_pos hlt, hpc]
    by_cases hii : i = i0
    · subst hii
      simp [upd, isHijackStuck]
    · simp [upd, hii]
      exact hs i
  | arm =>
    simp only [stepReq, if_pos hlt, hpc]
    by_cases hii : i = i0
    · subst hii
      simp [upd, isHijackStuck]
    · simp [upd, hii]
      exact hs i
  | handle =>
    simp only [stepReq, if_pos hlt, hpc, goHasHijack_w3c, Bool.and_false,
      Bool.false_eq_true, if_false]
    by_cases hii : i = i0
    · subst hii
      simp [upd, isHijackStuck]
    · simp [upd, hii]
      exact hs i
  | stop =>
    simp only [stepReq, if_pos hlt, hpc]
    split
    · by_cases hii : i = i0
      · subst hii
        simp [upd, isHijackStuck]
      · simp [upd, hii]
        exact hs i
    · by_cases hii : i = i0
      · subst hii
        simp [upd, isHijackStuck]
      · simp [upd, hii]
        exact hs i
  | tDone =>
    simp only [stepReq, if_pos hlt, hpc]
    by_cases hii : i = i0
    · subst hii
      simp [upd, isHijackStuck]
    · simp [upd, hii]
      exact hs i
  | emit fired =>
    simp only [stepReq, if_pos hlt, hpc]
    by_cases hii : i = i0
    · subst hii
      simp [upd, isHijackStuck]
    · simp [upd, hii]
      exact hs i
  | wgDone =>
    simp only [stepReq, if_pos hlt, hpc]
    by_cases hii : i = i0
    · subst hii
      simp [upd, isHijackStuck]
    · simp [upd, hii]
      exact hs i
  | done =>
    simp only [stepReq, if_pos hlt, hpc]
    exact hs i
  | hijackStuck =>
    simp only [stepReq, if_pos hlt, hpc]
    exact hs i

theorem not_stuck_stepTimer (n : Nat) (s : Sys) (i0 : Nat)
    (hs : ∀ i, isHijackStuck ((s.reqs i).pc) = false) (i : Nat) :
    isHijackStuck (((stepTimer n s i0).reqs i).pc) = false := by
  by_cases hlt : i0 < n
  swap
  · simp only [stepTimer, if_neg hlt]
    exact hs i
  cases ht : (s.reqs i0).timer with
  | armed =>
    simp only [stepTimer, if_pos hlt, ht]
    by_cases hii : i = i0
    · subst hii
      simp [upd]
      exact hs i
    · simp [upd, hii]
      exact hs i
  | fired1 =>
    simp only [stepTimer, if_pos hlt, ht]
    by_cases hii : i = i0
    · subst hii
      simp [upd]
      exact hs i
    · simp [upd, hii]
      exact hs i
  | fired2 =>
    simp only [stepTimer, if_pos hlt, ht]
    by_cases hii : i = i0
    · subst hii
      simp [upd]
      exact hs i
    · simp [upd, hii]
      exact hs i
  | idle =>
    simp only [stepTimer, if_pos hlt, ht]
    exact hs i
  | firedDone =>
    simp only [stepTimer, if_pos hlt, ht]
    exact hs i
  | stopped =>
    simp only [stepTimer, if_pos hlt, ht]
    exact hs i

theorem not_stuck_run (n : Nat) (inputs : Nat → HandlerOutcome)
    (sched : List Label) (i : Nat) :
    isHijackStuck (((run n inputs sched).reqs i).pc) = false := by
  rw [run]
  have hgen : ∀ (l : List Label) (s : Sys),
      (∀ j, isHijackStuck ((s.reqs j).pc) = false) →
      ∀ j, isHijackStuck (((l.foldl (step n) s).reqs j).pc) = false := by
    intro l
    induction l with
    | nil => intro s hs j; exact hs j
    | cons a l ih =>
      intro s hs j
      rw [List.foldl_cons]
      refine ih _ ?_ j
      cases a with
      | rstep i0 => exact not_stuck_stepReq n s i0 hs
      | tstep i0 => exact not_stuck_stepTimer n s i0 hs
  exact hgen sched (initSys inputs) (fun j => rfl) i

theorem exists_rid_one (n : Nat) (inputs : Nat → HandlerOutcome)
    (sched : List Label) (hn : 1 ≤ n)
    (hdone : ∀ i, i < n → ((run n inputs sched).reqs i).pc = RPC.done) :
    ∃ i, i < n ∧ ((run n inputs sched).reqs i).rid = 1 := by
  have hInv := inv_run n inputs sched
  have hgot : ∀ i, i < n → gotId ((run n inputs sched).reqs i).pc = true := by
    intro i hi
    rw [hdone i hi]
    rfl
  have hcnt : (run n inputs sched).counter = (n : Int) := by
    rw [hInv.counter_eq]
    have h1 : ∀ j ∈ Finset.range n, gotIdInt ((run n inputs sched).reqs j) = 1 := by
      intro j hj
      rw [gotIdInt, if_pos (hgot j (Finset.mem_range.mp hj))]
    rw [Finset.sum_congr rfl h1, Finset.sum_const, Finset.card_range]
    simp
  by_contra hcon
  push_neg at hcon
  have hinj : Set.InjOn (fun i => ((run n inputs sched).reqs i).rid)
      ↑(Finset.range n) := by
    intro a ha b hb hab
    by_contra hne
    exact hInv.rid_inj a (Finset.mem_range.mp (Finset.mem_coe.mp ha)) b
      (Finset.mem_range.mp (Finset.mem_coe.mp hb)) hne
      (hgot a (Finset.mem_range.mp (Finset.mem_coe.mp ha)))
      (hgot b (Finset.mem_range.mp (Finset.mem_coe.mp hb))) hab
  have hcard : ((Finset.range n).image
      (fun i => ((run n inputs sched).reqs i).rid)).card = n := by
    rw [Finset.card_image_of_injOn hinj, Finset.card_range]
  have hsub : (Finset.range n).image (fun i => ((run n inputs sched).reqs i).rid) ⊆
      Finset.Icc (2 : Int) (n : Int) := by
    intro x hx
    obtain ⟨i, hi, hrid⟩ := Finset.mem_image.mp hx
    have hi2 := Finset.mem_range.mp hi
    have hrid2 : ((run n inputs sched).reqs i).rid = x := hrid
    have hb := hInv.rid_bounds i hi2 (hgot i hi2)
    rw [hcnt] at hb
    have hne := hcon i hi2
    rw [Finset.mem_Icc, ← hrid2]
    constructor
    · omega
    · exact hb.2
  have hle := Finset.card_le_card hsub
  rw [hcard, Int.card_Icc] at hle
  omega

end HandlerModel

namespace HijackModelOld

/-- Shared state of one hijacked request under the w3clogger.go variant of
the connection wrappers (no `sync.Once` latch, no post-hijack byte
accounting, no `OnAfterHandle` override): the `w3cLogger` fields, the
provisional timer, the number of completed `Conn.Close` calls, and the
bytes actually transmitted through the wrapped connection — which in this
variant no program variable records. -/
structure OSys where
  wg : Int
  log : List HandlerModel.Entry
  status : Int
  written : Int
  werr : Option String
  timer : HandlerModel.TState
  connBytes : Int
  closeCount : Nat
deriving DecidableEq, Repr

/-- `w3cLogger.OnAfterHandle` (src/httploghandler/w3clogger.go lines 79-97)
for request identifier 1: `Stop` succeeds exactly when the timer is still
armed, in which case the wait-group unit is released and the association
field stays empty; otherwise the end marker is recorded.  The terminal
record carries `w.Written`, which in this variant holds only the
pre-hijack response bytes. -/
def onAfterHandle (s : OSys) : OSys :=
  if s.timer = HandlerModel.TState.armed then
    { s with timer := HandlerModel.TState.stopped, wg := s.wg - 1,
             log := s.log ++
               [HandlerModel.Entry.term 1 s.status s.written s.werr false] }
  else
    { s with log := s.log ++
        [HandlerModel.Entry.term 1 s.status s.written s.werr true] }

/-- A write through the wrapper in this variant: the embedded `net.Conn`'s
own `Write` transmits the bytes, and no wrapper field records them. -/
def connWrite (s : OSys) (m : Int) : OSys :=
  { s with connBytes := s.connBytes + m }

/-- `connWrap.Close` (src/httploghandler/w3clogger.go lines 122-125): it
calls `OnAfterHandle` unconditionally — there is no latch — and then the
underlying `Conn.Close`. -/
def connClose (s : OSys) : OSys :=
  let s2 := onAfterHandle s
  { s2 with closeCount := s2.closeCount + 1 }

/-- The state right after the wrapped handler hijacked the connection:
`ServeHTTP` and `OnBeforeHandle` each hold a wait-group unit, the
provisional timer is armed, `Hijack` set the sentinel status -1, and
`Written` holds the pre-hijack response bytes. -/
def hijacked (preBytes : Int) : OSys :=
  { wg := 2, log := [], status := -1, written := preBytes, werr := none,
    timer := HandlerModel.TState.armed, connBytes := 0, closeCount := 0 }

end HijackModelOld

def c1Inputs : Nat → HandlerModel.HandlerOutcome := fun _ => ⟨200, 5, none, false⟩

def c1Sched : List HandlerModel.Label := List.replicate 12 (HandlerModel.Label.rstep 0)

def c1HSched : List HijackModel.HLabel :=
  List.replicate 5 HijackModel.HLabel.req ++ [HijackModel.HLabel.wr] ++
    List.replicate 6 (HijackModel.HLabel.cls 0) ++
    List.replicate 2 HijackModel.HLabel.req

/-- C1: exactly one terminal record per accepted request on every completion
path: in the interleaving model of `ServeHTTP`/`OnAfterHandle`, a request
goroutine that has run to completion has exactly one terminal record with
its identifier in the log, whatever the schedule (covering both the
cancel-succeeded and timer-fired paths); and in the hijack model, once
every closer of the hijacked connection has completed, the log holds
exactly one terminal record. -/
theorem c1_exactly_one_terminal :
    (∀ (n : Nat) (inputs : Nat → HandlerModel.HandlerOutcome)
      (sched : List HandlerModel.Label) (i : Nat), i < n →
      ((HandlerModel.run n inputs sched).reqs i).pc = HandlerModel.RPC.done →
      (HandlerModel.run n inputs sched).log.countP
        (HandlerModel.Entry.isTermOf ((HandlerModel.run n inputs sched).reqs i).rid)
        = 1) ∧
    (∀ (preBytes : Int) (writes : List Int) (k : Nat)
      (sched : List HijackModel.HLabel), 1 ≤ k →
      (∀ c ∈ (HijackModel.runH preBytes writes k sched).closers,
          c = HijackModel.CPC.cdone true ∨ c = HijackModel.CPC.cdone false) →
      (HijackModel.runH preBytes writes k sched).log.countP
        HandlerModel.Entry.isTermEntry = 1) := by
  constructor
  · intro n inputs sched i hi hdonei
    have hInv := HandlerModel.inv_run n inputs sched
    have hg : HandlerModel.gotId ((HandlerModel.run n inputs sched).reqs i).pc
        = true := by
      rw [hdonei]
      rfl
    have ht := hInv.term_count i hi hg
    rw [ht, hdonei]
    rfl
  · intro preBytes writes k sched hk hdone
    exact HijackModel.closers_done_term_once k _
      (HijackModel.invH_run preBytes writes k sched) hk hdone

/-- C1 witness: a single request driven to completion emits one terminal
record, and a hijacked request closed once (with one redundant closer
skipping the latch body) emits one terminal record. -/
theorem c1_exactly_one_terminal_witness :
    ((0 < 1 ∧
        ((HandlerModel.run 1 c1Inputs c1Sched).reqs 0).pc = HandlerModel.RPC.done) ∧
      (HandlerModel.run 1 c1Inputs c1Sched).log.countP
        (HandlerModel.Entry.isTermOf
          ((HandlerModel.run 1 c1Inputs c1Sched).reqs 0).rid) = 1) ∧
    ((1 ≤ 1 ∧
        (∀ c ∈ (HijackModel.runH 7 [5] 1 c1HSched).closers,
          c = HijackModel.CPC.cdone true ∨ c = HijackModel.CPC.cdone false)) ∧
      (HijackModel.runH 7 [5] 1 c1HSched).log.countP
        HandlerModel.Entry.isTermEntry = 1) :=
  ⟨⟨⟨by decide, by decide⟩,
    c1_exactly_one_terminal.1 1 c1Inputs c1Sched 0 (by decide) (by decide)⟩,
   ⟨⟨by decide, by decide⟩,
    c1_exactly_one_terminal.2 7 [5] 1 c1HSched (by decide) (by decide)⟩⟩

/-- C2 counterexample (w3clogger.go variant of the wrappers): after 7 bytes
written before the hijack and 5 bytes written through the wrapper, two
`Close` calls emit two terminal records, each carrying only the pre-hijack
count 7 rather than 12; nothing guards against re-emission and the
post-hijack bytes are never folded in. -/
theorem c2_old_close_twice :
    (HijackModelOld.connClose (HijackModelOld.connClose
        (HijackModelOld.connWrite (HijackModelOld.hijacked 7) 5))).log =
      [HandlerModel.Entry.term 1 (-1) 7 none false,
       HandlerModel.Entry.term 1 (-1) 7 none true] ∧
    (HijackModelOld.connClose (HijackModelOld.connClose
        (HijackModelOld.connWrite (HijackModelOld.hijacked 7) 5))).connBytes = 5 := by
  decide

/-- C2 as amended (src/unnamed/part_002 variant): with the `sync.Once`
latch and the wrapper's byte counter, any number of closers — once all the
post-hijack writes have drained and no write races past the first close —
produce exactly one terminal record, and its byte count is the pre-hijack
bytes plus the sum of all bytes written through the wrapping transport. -/
theorem c2_hijack_close_once_bytes (preBytes : Int) (writes : List Int) (k : Nat)
    (sched : List HijackModel.HLabel) (hk : 1 ≤ k)
    (hnowr : HijackModel.noWrAfterClose sched = true)
    (hpend : (HijackModel.runH preBytes writes k sched).pendingWrites = [])
    (hdone : ∀ c ∈ (HijackModel.runH preBytes writes k sched).closers,
        c = HijackModel.CPC.cdone true ∨ c = HijackModel.CPC.cdone false) :
    (HijackModel.runH preBytes writes k sched).log.countP
        HandlerModel.Entry.isTermEntry = 1 ∧
      ∀ e ∈ (HijackModel.runH preBytes writes k sched).log,
        HandlerModel.Entry.isTermEntry e = true →
          HijackModel.termWrittenVal e = preBytes + writes.sum :=
  HijackModel.hijack_written_complete preBytes writes k sched hk hnowr hpend hdone

def c2Sched : List HijackModel.HLabel :=
  List.replicate 5 HijackModel.HLabel.req ++ [HijackModel.HLabel.wr] ++
    List.replicate 6 (HijackModel.HLabel.cls 0) ++
    List.replicate 2 (HijackModel.HLabel.cls 1) ++
    List.replicate 2 HijackModel.HLabel.req

/-- C2 witness: 7 pre-hijack bytes, one 5-byte post-hijack write, and two
closers — the winner runs the once body, the loser skips it — yield one
terminal record counting 12 bytes. -/
theorem c2_hijack_close_once_bytes_witness :
    (1 ≤ 2 ∧ HijackModel.noWrAfterClose c2Sched = true ∧
      (HijackModel.runH 7 [5] 2 c2Sched).pendingWrites = [] ∧
      (∀ c ∈ (HijackModel.runH 7 [5] 2 c2Sched).closers,
        c = HijackModel.CPC.cdone true ∨ c = HijackModel.CPC.cdone false)) ∧
    ((HijackModel.runH 7 [5] 2 c2Sched).log.countP
        HandlerModel.Entry.isTermEntry = 1 ∧
      ∀ e ∈ (HijackModel.runH 7 [5] 2 c2Sched).log,
        HandlerModel.Entry.isTermEntry e = true →
          HijackModel.termWrittenVal e = 7 + List.sum [5]) :=
  ⟨⟨by decide, by decide, by decide, by decide⟩,
   c2_hijack_close_once_bytes 7 [5] 2 c2Sched (by decide) (by decide)
     (by decide) (by decide)⟩

/-- C3 counterexample: an open hijacked connection holds no Shutdown
Counter unit — after the hijacked request's goroutine and the provisional
timer finish, the counter is zero while the connection is still open and
no terminal record has been emitted, so zero does not imply that every
unit of outstanding work in the claim's sense has completed. -/
theorem c3_hijack_unit_unaccounted :
    (HijackModel.runH 0 [] 1 (List.replicate 7 HijackModel.HLabel.req ++
        List.replicate 3 HijackModel.HLabel.tmr)).wg = 0 ∧
    (HijackModel.runH 0 [] 1 (List.replicate 7 HijackModel.HLabel.req ++
        List.replicate 3 HijackModel.HLabel.tmr)).connClosed = false ∧
    (HijackModel.runH 0 [] 1 (List.replicate 7 HijackModel.HLabel.req ++
        List.replicate 3 HijackModel.HLabel.tmr)).log.countP
      HandlerModel.Entry.isTermEntry = 0 := by
  decide

/-- C3 as amended: in the non-hijack interleaving model the wait-group
counter always equals the sum of the per-request outstanding units (one per
in-flight request, one per armed-or-pending timer), is never negative, and
is zero exactly when every request's units have drained. -/
theorem c3_counter_conservation (n : Nat)
    (inputs : Nat → HandlerModel.HandlerOutcome)
    (sched : List HandlerModel.Label) :
    (HandlerModel.run n inputs sched).wg =
      ∑ j in Finset.range n, HandlerModel.units
        ((HandlerModel.run n inputs sched).reqs j) ∧
    0 ≤ (HandlerModel.run n inputs sched).wg ∧
    ((HandlerModel.run n inputs sched).wg = 0 ↔
      ∀ j ∈ Finset.range n, HandlerModel.units
        ((HandlerModel.run n inputs sched).reqs j) = 0) := by
  have hInv := HandlerModel.inv_run n inputs sched
  have hnn : ∀ j ∈ Finset.range n,
      0 ≤ HandlerModel.units ((HandlerModel.run n inputs sched).reqs j) :=
    fun j _ => HandlerModel.units_nonneg _
  refine ⟨hInv.wg_eq, ?_, ?_⟩
  · rw [hInv.wg_eq]
    exact Finset.sum_nonneg hnn
  · rw [hInv.wg_eq]
    exact Finset.sum_eq_zero_iff_of_nonneg hnn

/-- C5 counterexample: with two concurrent requests, request 2 can run to
completion — terminal record and all — before request 1 (the header owner)
writes the three header lines, so the header does not appear before every
other record. -/
theorem c5_header_not_first :
    (HandlerModel.run 2 (fun _ => ⟨200, 5, none, false⟩)
        ([HandlerModel.Label.rstep 0, HandlerModel.Label.rstep 0] ++
          List.replicate 9 (HandlerModel.Label.rstep 1) ++
          List.replicate 10 (HandlerModel.Label.rstep 0))).log =
      [HandlerModel.Entry.term 2 200 5 none false,
       HandlerModel.Entry.headerLine 1, HandlerModel.Entry.headerLine 2,
       HandlerModel.Entry.headerLine 3,
       HandlerModel.Entry.term 1 200 5 none false] := by
  decide

/-- C5 as amended: the three header lines are emitted exactly once, by the
request assigned identifier 1 (whichever goroutine that is), and no header
line appears after request 1's terminal record; but they need not precede
records of other requests. -/
theorem c5_header_once_by_id1 (n : Nat)
    (inputs : Nat → HandlerModel.HandlerOutcome)
    (sched : List HandlerModel.Label) (hn : 1 ≤ n)
    (hdone : ∀ i, i < n →
      ((HandlerModel.run n inputs sched).reqs i).pc = HandlerModel.RPC.done) :
    (HandlerModel.run n inputs sched).log.countP HandlerModel.Entry.isHeader = 3 ∧
    HandlerModel.noHeaderAfterTerm1 (HandlerModel.run n inputs sched).log = true := by
  have hInv := HandlerModel.inv_run n inputs sched
  refine ⟨?_, hInv.no_hdr_after⟩
  obtain ⟨i0, hi0, hr0⟩ := HandlerModel.exists_rid_one n inputs sched hn hdone
  have hgot : ∀ i, i < n →
      HandlerModel.gotId ((HandlerModel.run n inputs sched).reqs i).pc = true := by
    intro i hi
    rw [hdone i hi]
    rfl
  rw [hInv.hdr_count]
  have hsing : ∀ j ∈ Finset.range n, j ≠ i0 →
      HandlerModel.hdrContrib ((HandlerModel.run n inputs sched).reqs j) = 0 := by
    intro j hj hne
    have hj2 := Finset.mem_range.mp hj
    have hrne : ((HandlerModel.run n inputs sched).reqs j).rid ≠ 1 := by
      intro hr
      exact hInv.rid_inj j hj2 i0 hi0 hne (hgot j hj2) (hgot i0 hi0)
        (by rw [hr, hr0])
    rw [HandlerModel.hdrContrib, if_neg hrne]
  have hsum : (∑ j in Finset.range n,
      HandlerModel.hdrContrib ((HandlerModel.run n inputs sched).reqs j)) =
      HandlerModel.hdrContrib ((HandlerModel.run n inputs sched).reqs i0) :=
    Finset.sum_eq_single i0 hsing
      (fun hni => absurd (Finset.mem_range.mpr hi0) hni)
  rw [hsum, HandlerModel.hdrContrib, if_pos hr0, hdone i0 hi0]
  rfl

def c5Inputs : Nat → HandlerModel.HandlerOutcome := fun _ => ⟨200, 5, none, false⟩

def c5Sched : List HandlerModel.Label := List.replicate 12 (HandlerModel.Label.rstep 0)

/-- C5 witness: one request driven to completion writes the three header
lines exactly once and no header after its terminal record. -/
theorem c5_header_once_by_id1_witness :
    (1 ≤ 1 ∧ ∀ i, i < 1 →
      ((HandlerModel.run 1 c5Inputs c5Sched).reqs i).pc = HandlerModel.RPC.done) ∧
    ((HandlerModel.run 1 c5Inputs c5Sched).log.countP
        HandlerModel.Entry.isHeader = 3 ∧
      HandlerModel.noHeaderAfterTerm1
        (HandlerModel.run 1 c5Inputs c5Sched).log = true) :=
  ⟨⟨by decide, by decide⟩,
   c5_header_once_by_id1 1 c5Inputs c5Sched (by decide) (by decide)⟩

/-- C10: the response writer `ServeHTTP` hands to the wrapped handler is the
plain `w3cLogger`, whose method set declares no `Hijack`, so the
`http.Hijacker` type assertion fails and no schedule ever drives a request
goroutine into the hijack path: the hijack wrappers are unreachable from
the public entry point. -/
theorem c10_hijack_unreachable :
    HandlerModel.goHasHijack HandlerModel.w3cLoggerMethodSet = false ∧
    ∀ (n : Nat) (inputs : Nat → HandlerModel.HandlerOutcome)
      (sched : List HandlerModel.Label) (i : Nat),
      HandlerModel.isHijackStuck (((HandlerModel.run n inputs sched).reqs i).pc)
        = false :=
  ⟨HandlerModel.goHasHijack_w3c,
   fun n inputs sched i => HandlerModel.not_stuck_run n inputs sched i⟩
